import Mathlib

/-!
# Verification of the textures backend analytics core

Shallow embedding of the three core modules of the `textures` backend
(`core/keyword_extractor.py`, `core/rating_analyzer.py`, `core/prompt_engine.py`)
together with proofs settling the frozen claims about them.

Modelling conventions:
* Python strings are modelled as `List Char` (`Str`); the regex `\w` class is
  modelled for ASCII input (letters, digits, underscore).
* Python dicts used as records are modelled as structures; an optional field
  (`rating`, `created_at`, `keywords`) collapses "key absent" and "key set to
  None/default" into the structure's default, matching the `dict.get` access
  pattern the source uses at every read site.
* Python dicts used as finite maps are modelled as association lists in
  insertion order, matching Python's guaranteed dict iteration order.
* Ratings are integers; derived statistics are rationals (`ℚ`).  Python's
  `round(x, 2)` is modelled as exact round-half-to-even on rationals.
* `random.choice(l)` is modelled as `randChoice n l = l.get? (n % l.length)`
  where `n` is drawn from an explicit random source passed to each call site;
  quantifying over the source quantifies over all outcomes of the PRNG.
* Fallible operations (list indexing, `random.choice`) return `Option`;
  the dynamically raised `{"error": ...}` dictionaries of the rating analyzer
  are modelled as `Except` values.
-/

namespace Textures

/-- Python strings, modelled as lists of characters. -/
abbrev Str := List Char

/-- The regex character class `\w` (word character), for ASCII input:
letters, digits and the underscore. -/
def isWordChar (c : Char) : Bool :=
  ('a' ≤ c && c ≤ 'z') || ('A' ≤ c && c ≤ 'Z') || ('0' ≤ c && c ≤ '9') || c = '_'

/-!
## Keyword extraction (`KeywordExtractor.extract_keywords`)

The source is `re.findall(r'##(\w+)', prompt)`.  `extractKeywords` models the
regex engine's left-to-right scan: at each position try to match `##\w+`
(with the maximal-munch word run); on success emit the captured run and resume
immediately after the match, on failure advance one character.
-/

/-- `re.findall(r'##(\w+)', prompt)`: left-to-right regex scan, maximal word
run after each `##`, resuming after each match. -/
def extractKeywords : Str → List Str
  | [] => []
  | [_] => []
  | c1 :: c2 :: rest =>
    if c1 = '#' ∧ c2 = '#' then
      let run := rest.takeWhile isWordChar
      if run = [] then extractKeywords ('#' :: rest)
      else run :: extractKeywords (rest.drop run.length)
    else extractKeywords (c2 :: rest)
termination_by l => l.length
decreasing_by
  · simp
  · simp [List.length_drop]; omega
  · simp

/-- Claim-level description of `extract_keywords`: at every position of the
prompt where `##` is immediately followed by a word character, the maximal
word-character run starting there is emitted, in left-to-right order of the
positions, duplicates preserved.  A lone `#`, or `##` with no trailing word
character, contributes nothing. -/
def headRun (p : Str) : Option Str :=
  match p with
  | c1 :: c2 :: c3 :: r =>
    if c1 = '#' ∧ c2 = '#' ∧ isWordChar c3 then some ((c3 :: r).takeWhile isWordChar)
    else none
  | _ => none

/-- The word-character runs immediately following `##`, position by position. -/
def specRuns : Str → List Str
  | [] => []
  | c :: rest => (headRun (c :: rest)).toList ++ specRuns rest

theorem specRuns_cons (c : Char) (l : Str) :
    specRuns (c :: l) = (headRun (c :: l)).toList ++ specRuns l := rfl

theorem isWordChar_ne_hash {c : Char} (h : isWordChar c = true) : c ≠ '#' := by
  intro hc; subst hc; simp [isWordChar] at h

theorem headRun_eq_none_of_word {c : Char} (h : isWordChar c = true) (l : Str) :
    headRun (c :: l) = none := by
  have hc := isWordChar_ne_hash h
  match l with
  | [] => rfl
  | [_] => rfl
  | a :: b :: t => simp [headRun, hc]

theorem headRun_eq_none_of_not_hashes {c1 c2 : Char} (h : ¬(c1 = '#' ∧ c2 = '#'))
    (l : Str) : headRun (c1 :: c2 :: l) = none := by
  match l with
  | [] => rfl
  | a :: t =>
    simp only [headRun, ite_eq_right_iff]
    intro hc
    exact absurd ⟨hc.1, hc.2.1⟩ h

/-- Dropping a leading word character does not change the runs found. -/
theorem specRuns_cons_word {c : Char} (h : isWordChar c = true) (l : Str) :
    specRuns (c :: l) = specRuns l := by
  rw [specRuns_cons, headRun_eq_none_of_word h]; rfl

/-- Dropping a leading word-character run does not change the runs found. -/
theorem specRuns_drop_takeWhile (l : Str) :
    specRuns (l.drop (l.takeWhile isWordChar).length) = specRuns l := by
  induction l with
  | nil => rfl
  | cons c t ih =>
    by_cases h : isWordChar c = true
    · rw [specRuns_cons_word h]
      simpa [List.takeWhile, h] using ih
    · have hf : isWordChar c = false := by simpa using h
      simp [List.takeWhile, hf]

theorem extractKeywords_hashes_fail {rest : Str} (h : rest.takeWhile isWordChar = []) :
    extractKeywords ('#' :: '#' :: rest) = extractKeywords ('#' :: rest) := by
  rw [extractKeywords]
  simp only [h]
  simp

theorem extractKeywords_hashes_match {rest : Str} (h : ¬rest.takeWhile isWordChar = []) :
    extractKeywords ('#' :: '#' :: rest) =
      rest.takeWhile isWordChar ::
        extractKeywords (rest.drop (rest.takeWhile isWordChar).length) := by
  rw [extractKeywords]
  simp only [if_neg h]
  simp

/-- The regex-scan model agrees with the position-by-position description. -/
theorem extractKeywords_eq_specRuns (p : Str) : extractKeywords p = specRuns p := by
  induction p using extractKeywords.induct with
  | case1 => simp [extractKeywords, specRuns]
  | case2 c => simp [extractKeywords, specRuns, headRun]
  | case3 c1 c2 rest hhash run hrun ih =>
    obtain ⟨h1, h2⟩ := hhash
    subst h1; subst h2
    have hrun2 : rest.takeWhile isWordChar = [] := hrun
    have hL := extractKeywords_hashes_fail hrun2
    have hnone : headRun ('#' :: '#' :: rest) = none := by
      match rest, hrun2 with
      | [], _ => rfl
      | c3 :: r, hrun2 =>
        have hw : isWordChar c3 = false := by
          by_contra hwc
          have : isWordChar c3 = true := by simpa using hwc
          simp [List.takeWhile, this] at hrun2
        simp [headRun, hw]
    rw [hL, ih, specRuns_cons '#' ('#' :: rest), hnone]
    rfl
  | case4 c1 c2 rest hhash run hrun ih =>
    obtain ⟨h1, h2⟩ := hhash
    subst h1; subst h2
    have hrun2 : ¬rest.takeWhile isWordChar = [] := hrun
    have hL := extractKeywords_hashes_match hrun2
    obtain ⟨c3, r, hr, hw⟩ : ∃ c3 r, rest = c3 :: r ∧ isWordChar c3 = true := by
      cases rest with
      | nil => exact absurd rfl hrun2
      | cons c3 r =>
        refine ⟨c3, r, rfl, ?_⟩
        by_contra hwc
        have : isWordChar c3 = false := by simpa using hwc
        simp [List.takeWhile, this] at hrun2
    subst hr
    have hhead : headRun ('#' :: '#' :: c3 :: r) = some ((c3 :: r).takeWhile isWordChar) := by
      simp [headRun, hw]
    have hmid : specRuns ('#' :: c3 :: r) = specRuns (c3 :: r) := by
      rw [specRuns_cons '#' (c3 :: r),
        headRun_eq_none_of_not_hashes (by simp [isWordChar_ne_hash hw])]
      rfl
    rw [hL, ih, specRuns_drop_takeWhile (c3 :: r), specRuns_cons '#' ('#' :: c3 :: r),
      hhead, hmid]
    rfl
  | case5 c1 c2 rest hhash ih =>
    have hL : extractKeywords (c1 :: c2 :: rest) = extractKeywords (c2 :: rest) := by
      rw [extractKeywords]
      simp only [if_neg hhash]
    rw [hL, ih, specRuns_cons c1 (c2 :: rest), headRun_eq_none_of_not_hashes hhash]
    rfl

/-- **C7.** For every prompt string `p`, `KeywordExtractor.extract_keywords(p)`
returns exactly the word-character runs that immediately follow `##` in `p`,
in left-to-right order of appearance with duplicates preserved
(`extract_keywords("##a ##b ##a") == ["a","b","a"]`); the empty sequence when
`p` contains no `##word` token, and a lone `#` or a `##` with no trailing word
character never produces a keyword.  The general statement is the equality
with `specRuns`, the position-by-position reading of the claim; the remaining
conjuncts are the claim's concrete cases. -/
theorem extract_keywords_exact :
    (∀ p : Str, extractKeywords p = specRuns p) ∧
    extractKeywords "##a ##b ##a".toList = ["a".toList, "b".toList, "a".toList] ∧
    extractKeywords "plain text".toList = [] ∧
    extractKeywords "## notaword".toList = [] ∧
    extractKeywords "# lone # hashes #".toList = [] ∧
    extractKeywords "trailing ##".toList = [] := by
  refine ⟨extractKeywords_eq_specRuns, ?_, ?_, ?_, ?_, ?_⟩ <;>
    simp +decide [extractKeywords]

/-!
## Generic sorting infrastructure

Python's `sorted`/`list.sort` is a stable sort; it is modelled by a stable
insertion sort parameterized by a boolean "may precede" relation `le`
(`le a b = true` means `a` may be placed before `b`; on equal keys the
earlier element stays first, which is exactly Python's stability guarantee).
-/

/-- Insert `x` after every element `y` of `l` with `le y x = true`. -/
def insertLe (le : α → α → Bool) (x : α) : List α → List α
  | [] => [x]
  | y :: t => if le y x then y :: insertLe le x t else x :: y :: t

/-- Stable insertion sort: elements are inserted left to right. -/
def stableSortBy (le : α → α → Bool) (l : List α) : List α :=
  l.foldl (fun acc x => insertLe le x acc) []

theorem insertLe_perm (le : α → α → Bool) (x : α) (l : List α) :
    (insertLe le x l).Perm (x :: l) := by
  induction l with
  | nil => exact List.Perm.refl _
  | cons y t ih =>
    by_cases h : le y x = true
    · simp only [insertLe, if_pos h]
      exact ((ih.cons y).trans (List.Perm.swap x y t))
    · simp only [insertLe, if_neg h]
      exact List.Perm.refl _

theorem stableSortBy_perm (le : α → α → Bool) (l : List α) :
    (stableSortBy le l).Perm l := by
  suffices h : ∀ (l acc : List α),
      (l.foldl (fun acc x => insertLe le x acc) acc).Perm (acc ++ l) by
    simpa using h l []
  intro l
  induction l with
  | nil => intro acc; simp
  | cons x t ih =>
    intro acc
    refine ((ih (insertLe le x acc)).trans ?_)
    refine ((insertLe_perm le x acc).append_right t).trans ?_
    exact (@List.perm_middle _ x acc t).symm

theorem mem_insertLe {le : α → α → Bool} {x a : α} {l : List α} :
    a ∈ insertLe le x l ↔ a = x ∨ a ∈ l := by
  rw [(insertLe_perm le x l).mem_iff]
  simp

theorem insertLe_pairwise {le : α → α → Bool}
    (htot : ∀ a b, le a b = true ∨ le b a = true)
    (htrans : ∀ a b c, le a b = true → le b c = true → le a c = true)
    {x : α} {l : List α} (hl : l.Pairwise (fun a b => le a b = true)) :
    (insertLe le x l).Pairwise (fun a b => le a b = true) := by
  induction l with
  | nil => simp [insertLe]
  | cons y t ih =>
    rcases List.pairwise_cons.mp hl with ⟨hy, ht⟩
    by_cases h : le y x = true
    · simp only [insertLe, if_pos h]
      refine List.pairwise_cons.mpr ⟨?_, ih ht⟩
      intro z hz
      rcases mem_insertLe.mp hz with hz | hz
      · subst hz; exact h
      · exact hy z hz
    · simp only [insertLe, if_neg h]
      have hxy : le x y = true := (htot x y).resolve_right (by simpa using h)
      refine List.pairwise_cons.mpr ⟨?_, hl⟩
      intro z hz
      rcases List.mem_cons.mp hz with hz | hz
      · subst hz; exact hxy
      · exact htrans x y z hxy (hy z hz)

theorem stableSortBy_pairwise {le : α → α → Bool}
    (htot : ∀ a b, le a b = true ∨ le b a = true)
    (htrans : ∀ a b c, le a b = true → le b c = true → le a c = true)
    (l : List α) :
    (stableSortBy le l).Pairwise (fun a b => le a b = true) := by
  suffices h : ∀ (l acc : List α), acc.Pairwise (fun a b => le a b = true) →
      (l.foldl (fun acc x => insertLe le x acc) acc).Pairwise
        (fun a b => le a b = true) by
    exact h l [] (by simp)
  intro l
  induction l with
  | nil => intro acc hacc; simpa using hacc
  | cons x t ih =>
    intro acc hacc
    exact ih _ (insertLe_pairwise htot htrans hacc)

/-- In a list whose `f`-values are pairwise non-increasing, filtering with a
predicate that is upward closed along `f` commutes with `take n` (the
satisfying elements sit at the front of the list). -/
theorem take_filter_comm_of_pairwise {l : List α} {f : α → ℚ} {p : α → Bool}
    (h : l.Pairwise (fun a b => f b ≤ f a))
    (hp : ∀ a b, f b ≤ f a → p b = true → p a = true) (n : ℕ) :
    (l.take n).filter p = (l.filter p).take n := by
  induction l generalizing n with
  | nil => simp
  | cons x t ih =>
    rcases List.pairwise_cons.mp h with ⟨hx, ht⟩
    cases n with
    | zero => simp
    | succ n =>
      by_cases hc : p x = true
      · simp [List.filter_cons, hc, ih ht n]
      · have hall : ∀ y ∈ t, p y = false := fun y hy => by
          rcases Bool.eq_false_or_eq_true (p y) with htr | hf
          · exact absurd (hp x y (hx y hy) htr) hc
          · exact hf
        have ht0 : t.filter p = [] :=
          List.filter_eq_nil_iff.mpr (fun y hy => by simp [hall y hy])
        have ht1 : (t.take n).filter p = [] :=
          List.filter_eq_nil_iff.mpr (fun y hy => by
            simp [hall y (List.mem_of_mem_take hy)])
        have hcf : p x = false := by simpa using hc
        simp [List.filter_cons, hcf, ht0, ht1]

/-!
## Numeric utilities

`statistics.mean` and `statistics.median` over integer ratings, producing
rationals, and Python's `round(x, 2)` modelled as exact round-half-to-even
at two decimal places.
-/

/-- `statistics.mean` of a list of integer ratings (callers guarantee the
list is non-empty; on `[]` this returns `0` where Python would raise). -/
def meanI (l : List Int) : ℚ := (l.sum : ℚ) / (l.length : ℚ)

/-- `statistics.median`: middle element of the ascending sort, or the mean of
the two middle elements for an even count. -/
def medianI (l : List Int) : ℚ :=
  let s := stableSortBy (fun a b : Int => decide (a ≤ b)) l
  let n := s.length
  if n % 2 = 1 then ((s.getD (n / 2) 0 : Int) : ℚ)
  else (((s.getD (n / 2 - 1) 0 + s.getD (n / 2) 0 : Int)) : ℚ) / 2

/-- Round to the nearest integer, ties to even (Python's `round`). -/
def roundHalfEven (x : ℚ) : ℤ :=
  if x - ⌊x⌋ = 1/2 then (if ⌊x⌋ % 2 = 0 then ⌊x⌋ else ⌊x⌋ + 1) else round x

/-- Python's `round(x, 2)`. -/
def round2 (x : ℚ) : ℚ := (roundHalfEven (x * 100) : ℚ) / 100

/-!
## Rating analyzer data model (`core/rating_analyzer.py`)

A historical record as consumed by `RatingAnalyzer`: every access in the
source goes through `item.get('rating')` / `item.get('created_at', '')` /
`item.get('keywords', [])`, so an absent key and the field's default are
indistinguishable and are collapsed into the structure defaults.
-/

structure Rec where
  rating : Option Int := none
  created_at : Str := []
  keywords : List Str := []
deriving DecidableEq, Repr

/-- `core/constants.py`: `HIGH_RATING_THRESHOLD = 4`. -/
def HIGH_RATING_THRESHOLD : Int := 4

/-- `core/constants.py`: `MIN_SAMPLES_FOR_ANALYSIS = 3`. -/
def MIN_SAMPLES_FOR_ANALYSIS : Nat := 3

/-- Lexicographic comparison of strings by code point, Python's `<=` on
`str` as used by `sorted(..., key=lambda x: x.get('created_at', ''))`. -/
def strLe : Str → Str → Bool
  | [], _ => true
  | _ :: _, [] => false
  | a :: as, b :: bs => if a = b then strLe as bs else decide (a < b)

/-- `RatingAnalyzer._analyze_rating_trend`. -/
def analyzeRatingTrend (theme_data : List Rec) : Str :=
  if theme_data.length < 5 then "insufficient_data".toList
  else
    let sorted_data := stableSortBy (fun a b => strLe a.created_at b.created_at) theme_data
    let ratings := sorted_data.filterMap (fun r => r.rating)
    if ratings.length < 3 then "insufficient_data".toList
    else
      let recent_avg := meanI (ratings.drop (ratings.length - 3))
      let early_avg := meanI (ratings.take 3)
      if recent_avg > early_avg + 1/2 then "improving".toList
      else if recent_avg < early_avg - 1/2 then "declining".toList
      else "stable".toList

/-- `RatingAnalyzer._get_performance_level` (thresholds from
`core/constants.py`). -/
def getPerformanceLevel (success_rate avg_rating : ℚ) : Str :=
  if success_rate ≥ 7/10 ∧ avg_rating ≥ 4 then "excellent".toList
  else if success_rate ≥ 1/2 ∧ avg_rating ≥ 7/2 then "good".toList
  else if success_rate ≥ 3/10 ∧ avg_rating ≥ 3 then "fair".toList
  else "poor".toList

/-- `Counter(ratings)` as an association list: keys in first-occurrence
order, each mapped to its multiplicity. -/
def counter (l : List Int) : List (Int × Nat) :=
  (l.foldl (fun acc r => if acc.contains r then acc else acc ++ [r]) []).map
    (fun r => (r, l.count r))

/-- The analysis failures that `analyze_theme_performance` signals by
returning an `{"error": ...}` dictionary (`"No data provided"` /
`"No ratings found"`; the spec names them `NoDataError` / `NoRatingsError`). -/
inductive AnalysisError where
  | noData
  | noRatings
deriving DecidableEq, Repr

structure ThemePerformance where
  total_images : Nat
  rated_images : Nat
  average_rating : ℚ
  median_rating : ℚ
  high_rated_count : Nat
  success_rate : ℚ
  rating_distribution : List (Int × Nat)
  trend : Str
  performance_level : Str
deriving DecidableEq, Repr

/-- `RatingAnalyzer.analyze_theme_performance`. -/
def analyzeThemePerformance (theme_data : List Rec) :
    Except AnalysisError ThemePerformance :=
  if theme_data.isEmpty then .error .noData
  else
    let ratings := theme_data.filterMap (fun r => r.rating)
    if ratings.isEmpty then .error .noRatings
    else
      let avg_rating := meanI ratings
      let high_rated_count := (ratings.filter (fun r => r ≥ HIGH_RATING_THRESHOLD)).length
      let success_rate := (high_rated_count : ℚ) / (ratings.length : ℚ)
      .ok
        { total_images := theme_data.length
          rated_images := ratings.length
          average_rating := round2 avg_rating
          median_rating := medianI ratings
          high_rated_count := high_rated_count
          success_rate := round2 success_rate
          rating_distribution := counter ratings
          trend := analyzeRatingTrend theme_data
          performance_level := getPerformanceLevel success_rate avg_rating }

theorem filterMap_rating_eq_nil {recs : List Rec}
    (h : ∀ r ∈ recs, r.rating = none) :
    recs.filterMap (fun r => r.rating) = [] := by
  induction recs with
  | nil => rfl
  | cons r t ih =>
    have hr := h r (List.mem_cons_self r t)
    simp only [List.filterMap_cons, hr]
    exact ih (fun x hx => h x (List.mem_cons_of_mem r hx))

/-- **C1.** For every empty record list, `analyze_theme_performance` fails
with `NoDataError`; for every non-empty record list in which no record
carries a rating it fails with `NoRatingsError`; in both cases no normal
performance result is produced (an `.ok` result forces a non-empty input
with at least one rated record). -/
theorem analyze_theme_performance_failure_modes (recs : List Rec) :
    (recs = [] → analyzeThemePerformance recs = .error .noData) ∧
    (recs ≠ [] → (∀ r ∈ recs, r.rating = none) →
      analyzeThemePerformance recs = .error .noRatings) ∧
    (∀ res, analyzeThemePerformance recs = .ok res →
      recs ≠ [] ∧ ∃ r ∈ recs, r.rating ≠ none) := by
  refine ⟨?_, ?_, ?_⟩
  · intro h; subst h; rfl
  · intro hne hall
    have h0 : recs.isEmpty = false := by
      cases recs with
      | nil => exact absurd rfl hne
      | cons r t => rfl
    have h1 : recs.filterMap (fun r => r.rating) = [] := filterMap_rating_eq_nil hall
    unfold analyzeThemePerformance
    simp [h0, h1]
  · intro res hok
    constructor
    · intro h; subst h; simp [analyzeThemePerformance] at hok
    · by_contra hnone
      push_neg at hnone
      have hall : ∀ r ∈ recs, r.rating = none := hnone
      have h1 : recs.filterMap (fun r => r.rating) = [] := filterMap_rating_eq_nil hall
      unfold analyzeThemePerformance at hok
      by_cases h0 : recs.isEmpty <;> simp [h0, h1] at hok

/-- Witness for C1 at concrete inputs. -/
theorem analyze_theme_performance_failure_modes_witness :
    analyzeThemePerformance [] = .error .noData ∧
    analyzeThemePerformance [{ rating := none }] = .error .noRatings :=
  ⟨(analyze_theme_performance_failure_modes []).1 rfl,
   (analyze_theme_performance_failure_modes [{ rating := none }]).2.1
     (by simp) (by simp)⟩

/-- Trend classification exactly as the specification words it: fewer than 5
records or fewer than 3 rated records gives `insufficient_data`; otherwise,
after sorting ascending by `created_at` (lexicographic string comparison),
compare the mean of the last 3 ratings with the mean of the first 3. -/
def trendSpec (recs : List Rec) : Str :=
  let rated := (stableSortBy (fun a b => strLe a.created_at b.created_at) recs).filterMap
    (fun r => r.rating)
  if recs.length < 5 ∨ rated.length < 3 then "insufficient_data".toList
  else
    let early_mean := meanI (rated.take 3)
    let recent_mean := meanI (rated.drop (rated.length - 3))
    if recent_mean > early_mean + 1/2 then "improving".toList
    else if recent_mean < early_mean - 1/2 then "declining".toList
    else "stable".toList

/-- The claim's concrete trend example: 5 records with ratings
`[2,3,3,4,5]` in ascending `created_at`. -/
def trendExample : List Rec :=
  [{ rating := some 2, created_at := "a".toList },
   { rating := some 3, created_at := "b".toList },
   { rating := some 3, created_at := "c".toList },
   { rating := some 4, created_at := "d".toList },
   { rating := some 5, created_at := "e".toList }]

/-- **C5.** `analyze_theme_performance`'s trend classification agrees with
the specification's description (`trendSpec`), the `trend` field of a
successful analysis is exactly `_analyze_rating_trend` of the input, and the
claim's concrete example (ratings `[2,3,3,4,5]` ascending) classifies as
`improving`. -/
theorem rating_trend_spec :
    (∀ recs : List Rec, analyzeRatingTrend recs = trendSpec recs) ∧
    (∀ recs : List Rec,
      Except.map (fun r => r.trend) (analyzeThemePerformance recs) =
        Except.map (fun _ => analyzeRatingTrend recs) (analyzeThemePerformance recs)) ∧
    analyzeRatingTrend trendExample = "improving".toList := by
  refine ⟨?_, ?_, ?_⟩
  rotate_right
  · have hsort : stableSortBy (fun a b => strLe a.created_at b.created_at) trendExample =
        trendExample := by
      simp +decide [trendExample, stableSortBy, insertLe, strLe]
    have hfm : trendExample.filterMap (fun r => r.rating) = [2, 3, 3, 4, 5] := by decide
    have hlen : ¬ trendExample.length < 5 := by decide
    unfold analyzeRatingTrend
    simp only [hsort, hfm, if_neg hlen]
    norm_num [meanI]
  · intro recs
    unfold analyzeRatingTrend trendSpec
    by_cases h5 : recs.length < 5
    · simp [h5]
    · by_cases h3 : ((stableSortBy (fun a b => strLe a.created_at b.created_at) recs).filterMap
          (fun r => r.rating)).length < 3
      · simp [h5, h3]
      · simp [h5, h3]
  · intro recs
    unfold analyzeThemePerformance
    by_cases h0 : recs.isEmpty
    · simp [h0, Except.map]
    · by_cases h1 : (recs.filterMap (fun r => r.rating)).isEmpty
      · simp [h0, h1, Except.map]
      · simp [h0, h1, Except.map]

/-!
## `RatingAnalyzer.analyze_keyword_effectiveness`

The source collects, per keyword, the ratings of every *rated* record that
mentions it (`defaultdict(list)` + append, in encounter order), keeps the
keywords with at least `MIN_SAMPLES_FOR_ANALYSIS` samples, computes per-keyword
metrics, and sorts by `(success_rate, average_rating)` descending.
-/

structure KwStats where
  total_uses : Nat
  average_rating : ℚ
  high_rated_count : Nat
  success_rate : ℚ
  confidence : Str
deriving DecidableEq, Repr

/-- Association-list lookup (first entry with the given key). -/
def findVal (l : List (Str × α)) (k : Str) : Option α :=
  (l.find? (fun p => decide (p.1 = k))).map (fun p => p.2)

/-- `keyword_stats[keyword].append(rating)` on an insertion-ordered
association list (`defaultdict(list)` behaviour). -/
def addRating (acc : List (Str × List Int)) (kw : Str) (r : Int) :
    List (Str × List Int) :=
  if acc.any (fun p => decide (p.1 = kw)) then
    acc.map (fun p => (p.1, if p.1 = kw then p.2 ++ [r] else p.2))
  else acc ++ [(kw, [r])]

/-- The keyword → ratings collection loop of
`RatingAnalyzer.analyze_keyword_effectiveness` (records without a rating are
skipped entirely). -/
def collectRatedStats (recs : List Rec) : List (Str × List Int) :=
  recs.foldl (fun acc item =>
    match item.rating with
    | none => acc
    | some r => item.keywords.foldl (fun a kw => addRating a kw r) acc) []

/-- `RatingAnalyzer._calculate_confidence` (thresholds from
`core/constants.py`: 10 / 0.7 for high, 5 / 0.5 for medium). -/
def calcConfidence (sample_size : Nat) (success_rate : ℚ) : Str :=
  if sample_size ≥ 10 ∧ success_rate > 7/10 then "high".toList
  else if sample_size ≥ 5 ∧ success_rate > 1/2 then "medium".toList
  else "low".toList

/-- The exact (unrounded) success rate of a list of ratings. -/
def rawSuccessRate (ratings : List Int) : ℚ :=
  (((ratings.filter (fun r => r ≥ HIGH_RATING_THRESHOLD)).length : ℚ)) /
    ((ratings.length : ℚ))

/-- Per-keyword metrics computed by
`RatingAnalyzer.analyze_keyword_effectiveness` (note: the rounded values are
stored; the *unrounded* success rate feeds `_calculate_confidence`). -/
def kwStatsOf (ratings : List Int) : KwStats :=
  { total_uses := ratings.length
    average_rating := round2 (meanI ratings)
    high_rated_count := (ratings.filter (fun r => r ≥ HIGH_RATING_THRESHOLD)).length
    success_rate := round2 (rawSuccessRate ratings)
    confidence := calcConfidence ratings.length (rawSuccessRate ratings) }

/-- The `effectiveness` dictionary: keywords with at least
`MIN_SAMPLES_FOR_ANALYSIS` rated samples, in collection order. -/
def raEffectiveness (recs : List Rec) : List (Str × KwStats) :=
  (collectRatedStats recs).filterMap (fun p =>
    if p.2.length ≥ MIN_SAMPLES_FOR_ANALYSIS then some (p.1, kwStatsOf p.2) else none)

/-- "`a` may precede `b`" for Python's
`sorted(..., key=lambda x: (success_rate, average_rating), reverse=True)`. -/
def kwSortLe (a b : Str × KwStats) : Bool :=
  decide (b.2.success_rate < a.2.success_rate ∨
    (b.2.success_rate = a.2.success_rate ∧ b.2.average_rating ≤ a.2.average_rating))

/-- The `sorted_keywords` list of the source. -/
def sortedKeywords (recs : List Rec) : List (Str × KwStats) :=
  stableSortBy kwSortLe (raEffectiveness recs)

/-- `RatingAnalyzer._assess_analysis_quality`. -/
def assessAnalysisQuality (eff : List (Str × KwStats)) : Str :=
  if eff.isEmpty then "no_data".toList
  else
    let high_confidence_count :=
      (eff.filter (fun e => decide (e.2.confidence = "high".toList))).length
    if high_confidence_count ≥ 3 then "high".toList
    else if high_confidence_count ≥ 1 then "medium".toList
    else "low".toList

structure KwEffectivenessResult where
  keyword_effectiveness : List (Str × KwStats)
  top_performers : List Str
  underperformers : List Str
  analysis_quality : Str
deriving DecidableEq, Repr

/-- `RatingAnalyzer.analyze_keyword_effectiveness`. -/
def raAnalyzeKeywordEffectiveness (recs : List Rec) : KwEffectivenessResult :=
  let sorted_kws := sortedKeywords recs
  { keyword_effectiveness := sorted_kws
    top_performers :=
      ((sorted_kws.take 5).filter (fun e => decide (e.2.success_rate > 1/2))).map
        (fun e => e.1)
    underperformers :=
      (sorted_kws.filter (fun e => decide (e.2.success_rate < 3/10))).map (fun e => e.1)
    analysis_quality := assessAnalysisQuality (raEffectiveness recs) }

/-- Claim-level description of a keyword's rated samples: for every rated
record, one copy of its rating per occurrence of the keyword in the record's
keyword list, in record order. -/
def ratedSamples (recs : List Rec) (kw : Str) : List Int :=
  recs.flatMap (fun r =>
    match r.rating with
    | none => []
    | some v => List.replicate (r.keywords.count kw) v)

theorem findVal_nil (k : Str) : findVal ([] : List (Str × α)) k = none := rfl

theorem findVal_cons (p : Str × α) (l : List (Str × α)) (k : Str) :
    findVal (p :: l) k = if p.1 = k then some p.2 else findVal l k := by
  by_cases h : p.1 = k <;> simp [findVal, List.find?_cons, h]

theorem findVal_append (l₁ l₂ : List (Str × α)) (k : Str) :
    findVal (l₁ ++ l₂) k = (findVal l₁ k <|> findVal l₂ k) := by
  induction l₁ with
  | nil => simp [findVal_nil]
  | cons p t ih =>
    by_cases hp : p.1 = k <;> simp [findVal_cons, hp, ih]

theorem findVal_mapUpdate (t : List (Str × List Int)) (kw : Str) (r : Int) (k : Str) :
    findVal (t.map (fun p => (p.1, if p.1 = kw then p.2 ++ [r] else p.2))) k =
      (findVal t k).map (fun v => if k = kw then v ++ [r] else v) := by
  induction t with
  | nil => rfl
  | cons p t ih =>
    rw [List.map_cons, findVal_cons, findVal_cons]
    by_cases hp : p.1 = k
    · simp only [hp, if_pos]
      by_cases hk : k = kw <;> simp [hk]
    · simp only [hp, if_neg, ite_false]
      simpa using ih

theorem findVal_isSome_of_any {acc : List (Str × List Int)} {kw : Str}
    (h : acc.any (fun p => decide (p.1 = kw)) = true) : (findVal acc kw).isSome := by
  induction acc with
  | nil => simp at h
  | cons p t ih =>
    rw [findVal_cons]
    by_cases hp : p.1 = kw
    · simp [hp]
    · simp only [List.any_cons, Bool.or_eq_true, decide_eq_true_eq] at h
      rcases h with h | h
      · exact absurd h hp
      · simpa [hp] using ih h

theorem findVal_eq_none_of_not_any {acc : List (Str × List Int)} {kw : Str}
    (h : ¬ acc.any (fun p => decide (p.1 = kw)) = true) : findVal acc kw = none := by
  induction acc with
  | nil => rfl
  | cons p t ih =>
    simp only [List.any_cons, Bool.or_eq_true, decide_eq_true_eq] at h
    push_neg at h
    rw [findVal_cons, if_neg h.1]
    exact ih (by simpa using h.2)

theorem findVal_addRating (acc : List (Str × List Int)) (kw : Str) (r : Int) (k : Str) :
    findVal (addRating acc kw r) k =
      if k = kw then some ((findVal acc kw).getD [] ++ [r]) else findVal acc k := by
  unfold addRating
  by_cases hany : acc.any (fun p => decide (p.1 = kw)) = true
  · rw [if_pos hany, findVal_mapUpdate]
    by_cases hk : k = kw
    · subst hk
      obtain ⟨v, hv⟩ := Option.isSome_iff_exists.mp (findVal_isSome_of_any hany)
      rw [hv]
      simp
    · simp [hk]
  · rw [if_neg hany, findVal_append]
    have hnone : findVal acc kw = none := findVal_eq_none_of_not_any hany
    by_cases hk : k = kw
    · subst hk
      rw [hnone]
      simp [findVal_cons]
    · have hne : ¬ kw = k := fun h => hk h.symm
      have h1 : findVal [(kw, [r])] k = none := by
        rw [findVal_cons, if_neg hne]
        rfl
      rw [h1]
      cases h : findVal acc k <;> simp [hk]

theorem findVal_innerFold (kws : List Str) (acc : List (Str × List Int)) (r : Int)
    (k : Str) :
    findVal (kws.foldl (fun a kw => addRating a kw r) acc) k =
      if kws.count k = 0 then findVal acc k
      else some ((findVal acc k).getD [] ++ List.replicate (kws.count k) r) := by
  induction kws generalizing acc with
  | nil => simp
  | cons kw rest ih =>
    rw [List.foldl_cons, ih (addRating acc kw r), findVal_addRating]
    by_cases hk : k = kw
    · subst hk
      rw [List.count_cons_self]
      by_cases h0 : rest.count k = 0
      · simp [h0, List.replicate_succ]
      · simp [h0, List.append_assoc, List.replicate_succ]
    · rw [if_neg hk]
      have hcnt : (kw :: rest).count k = rest.count k := by
        rw [List.count_cons]
        simp [hk, Ne.symm hk]
      rw [hcnt]

theorem findVal_outerFold (recs : List Rec) (acc : List (Str × List Int)) (k : Str) :
    findVal (recs.foldl (fun acc item =>
        match item.rating with
        | none => acc
        | some r => item.keywords.foldl (fun a kw => addRating a kw r) acc) acc) k =
      if ratedSamples recs k = [] then findVal acc k
      else some ((findVal acc k).getD [] ++ ratedSamples recs k) := by
  induction recs generalizing acc with
  | nil => simp [ratedSamples]
  | cons item rest ih =>
    rw [List.foldl_cons]
    cases hr : item.rating with
    | none =>
      have hs : ratedSamples (item :: rest) k = ratedSamples rest k := by
        simp [ratedSamples, hr]
      rw [hs]
      simp only [hr]
      exact ih acc
    | some v =>
      simp only [hr]
      rw [ih _, findVal_innerFold]
      have hs : ratedSamples (item :: rest) k =
          List.replicate (item.keywords.count k) v ++ ratedSamples rest k := by
        simp [ratedSamples, hr]
      rw [hs]
      by_cases h0 : item.keywords.count k = 0
      · simp [h0]
      · have hrep : List.replicate (item.keywords.count k) v ≠ [] := by
          simp [h0]
        by_cases h1 : ratedSamples rest k = []
        · simp [h0, h1, hrep]
        · have hne : ¬ (List.replicate (item.keywords.count k) v ++ ratedSamples rest k = []) := by
            simp [hrep]
          simp only [h1, if_neg, hne, if_neg h0, ite_false]
          simp [List.append_assoc]

theorem findVal_collect (recs : List Rec) (k : Str) :
    findVal (collectRatedStats recs) k =
      if ratedSamples recs k = [] then none else some (ratedSamples recs k) := by
  have h := findVal_outerFold recs [] k
  simpa [collectRatedStats, findVal_nil] using h

/-- The keys of an association list. -/
def keysOf (l : List (Str × α)) : List Str := l.map (fun p => p.1)

theorem nodupKeys_addRating {acc : List (Str × List Int)} {kw : Str} {r : Int}
    (h : (keysOf acc).Nodup) : (keysOf (addRating acc kw r)).Nodup := by
  unfold addRating
  by_cases hany : acc.any (fun p => decide (p.1 = kw)) = true
  · rw [if_pos hany]
    have : keysOf (acc.map (fun p => (p.1, if p.1 = kw then p.2 ++ [r] else p.2))) =
        keysOf acc := by
      simp [keysOf, List.map_map, Function.comp]
    rw [this]
    exact h
  · rw [if_neg hany]
    have hnotin : kw ∉ keysOf acc := by
      intro hmem
      rcases List.mem_map.mp hmem with ⟨p, hp, hpk⟩
      exact hany (List.any_eq_true.mpr ⟨p, hp, by simp [hpk]⟩)
    have : keysOf (acc ++ [(kw, [r])]) = keysOf acc ++ [kw] := by simp [keysOf]
    rw [this]
    exact List.Nodup.append h (List.nodup_singleton kw)
      (by simpa [List.disjoint_singleton] using hnotin)

theorem nodupKeys_innerFold {kws : List Str} {acc : List (Str × List Int)} {r : Int}
    (h : (keysOf acc).Nodup) :
    (keysOf (kws.foldl (fun a kw => addRating a kw r) acc)).Nodup := by
  induction kws generalizing acc with
  | nil => exact h
  | cons kw rest ih => exact ih (nodupKeys_addRating h)

theorem nodupKeys_collect (recs : List Rec) :
    (keysOf (collectRatedStats recs)).Nodup := by
  suffices hgen : ∀ acc : List (Str × List Int), (keysOf acc).Nodup →
      (keysOf (recs.foldl (fun acc item =>
        match item.rating with
        | none => acc
        | some r => item.keywords.foldl (fun a kw => addRating a kw r) acc) acc)).Nodup by
    exact hgen [] (by simp [keysOf])
  induction recs with
  | nil => intro acc hacc; exact hacc
  | cons item rest ih =>
    intro acc hacc
    rw [List.foldl_cons]
    cases hr : item.rating with
    | none => simpa [hr] using ih acc hacc
    | some v =>
      simp only [hr]
      exact ih _ (nodupKeys_innerFold hacc)

theorem findVal_eq_of_mem {l : List (Str × α)} (hnd : (keysOf l).Nodup) {k : Str}
    {v : α} (hm : (k, v) ∈ l) : findVal l k = some v := by
  induction l with
  | nil => simp at hm
  | cons p t ih =>
    rcases List.mem_cons.mp hm with hm | hm
    · rw [← hm, findVal_cons]
      simp
    · have hk : k ∈ keysOf t := List.mem_map.mpr ⟨(k, v), hm, rfl⟩
      have hp : p.1 ∉ keysOf t := (List.nodup_cons.mp hnd).1
      have hne : p.1 ≠ k := fun he => hp (he ▸ hk)
      rw [findVal_cons, if_neg hne]
      exact ih (List.nodup_cons.mp hnd).2 hm

theorem collect_entry_samples {recs : List Rec} {p : Str × List Int}
    (hm : p ∈ collectRatedStats recs) : p.2 = ratedSamples recs p.1 := by
  have h1 : findVal (collectRatedStats recs) p.1 = some p.2 :=
    findVal_eq_of_mem (nodupKeys_collect recs) hm
  rw [findVal_collect] at h1
  by_cases h : ratedSamples recs p.1 = []
  · simp [h] at h1
  · rw [if_neg h] at h1
    exact (Option.some_injective _ h1).symm

theorem kwSortLe_total (a b : Str × KwStats) :
    kwSortLe a b = true ∨ kwSortLe b a = true := by
  simp only [kwSortLe, decide_eq_true_eq]
  rcases lt_trichotomy a.2.success_rate b.2.success_rate with h | h | h
  · right; left; exact h
  · rcases le_total b.2.average_rating a.2.average_rating with h2 | h2
    · left; right; exact ⟨h.symm, h2⟩
    · right; right; exact ⟨h, h2⟩
  · left; left; exact h

theorem kwSortLe_trans (a b c : Str × KwStats) (hab : kwSortLe a b = true)
    (hbc : kwSortLe b c = true) : kwSortLe a c = true := by
  simp only [kwSortLe, decide_eq_true_eq] at hab hbc ⊢
  rcases hab with h1 | ⟨h1, h1'⟩ <;> rcases hbc with h2 | ⟨h2, h2'⟩
  · left; exact lt_trans h2 h1
  · left; rw [h2]; exact h1
  · left; rw [← h1]; exact h2
  · right; exact ⟨h2.trans h1, h2'.trans h1'⟩

theorem sortedKeywords_pairwise (recs : List Rec) :
    (sortedKeywords recs).Pairwise
      (fun a b => b.2.success_rate < a.2.success_rate ∨
        (b.2.success_rate = a.2.success_rate ∧
          b.2.average_rating ≤ a.2.average_rating)) := by
  have h := stableSortBy_pairwise kwSortLe_total kwSortLe_trans (raEffectiveness recs)
  exact h.imp (fun hab => by simpa [kwSortLe, decide_eq_true_eq] using hab)

theorem sortedKeywords_sr_pairwise (recs : List Rec) :
    (sortedKeywords recs).Pairwise
      (fun a b => b.2.success_rate ≤ a.2.success_rate) := by
  refine (sortedKeywords_pairwise recs).imp ?_
  rintro a b (h | ⟨h, _⟩)
  · exact le_of_lt h
  · exact le_of_eq h

theorem mem_raEffectiveness {recs : List Rec} {e : Str × KwStats} :
    e ∈ raEffectiveness recs ↔
      MIN_SAMPLES_FOR_ANALYSIS ≤ (ratedSamples recs e.1).length ∧
        e.2 = kwStatsOf (ratedSamples recs e.1) := by
  constructor
  · intro hm
    rcases List.mem_filterMap.mp hm with ⟨p, hp, hf⟩
    by_cases hlen : MIN_SAMPLES_FOR_ANALYSIS ≤ p.2.length
    · rw [if_pos hlen] at hf
      have he := Option.some_injective _ hf
      have hs := collect_entry_samples hp
      subst he
      simp only at *
      rw [← hs]
      exact ⟨hlen, rfl⟩
    · rw [if_neg hlen] at hf
      exact absurd hf (by simp)
  · rintro ⟨hlen, hst⟩
    have hne : ratedSamples recs e.1 ≠ [] := by
      intro h0
      rw [h0] at hlen
      simp [MIN_SAMPLES_FOR_ANALYSIS] at hlen
    have hfv : findVal (collectRatedStats recs) e.1 = some (ratedSamples recs e.1) := by
      rw [findVal_collect, if_neg hne]
    rcases Option.map_eq_some'.mp hfv with ⟨q, hq, hq2⟩
    have hqmem : q ∈ collectRatedStats recs := List.mem_of_find?_eq_some hq
    have hqpred : q.1 = e.1 := by
      have := List.find?_some hq
      simpa using this
    refine List.mem_filterMap.mpr ⟨q, hqmem, ?_⟩
    have hcond : MIN_SAMPLES_FOR_ANALYSIS ≤ q.2.length := by
      rw [hq2]; exact hlen
    rw [if_pos hcond, hq2, hqpred, ← hst]

/-- **C4.** `RatingAnalyzer.analyze_keyword_effectiveness`: a keyword appears
in `keyword_effectiveness` iff it has at least 3 rated samples; each
qualifying keyword's stats are computed from exactly its rated samples, with
confidence `high` iff samples ≥ 10 and (unrounded) success rate > 0.7,
`medium` iff samples ≥ 5 and success rate > 0.5, else `low`; the output is
sorted by `(success_rate, average_rating)` descending; `top_performers` is up
to 5 keywords from the sorted list with `success_rate > 0.5`; and
`underperformers` is every qualifying keyword with `success_rate < 0.3`. -/
theorem ra_keyword_effectiveness_spec (recs : List Rec) :
    (∀ kw : Str,
      kw ∈ (raAnalyzeKeywordEffectiveness recs).keyword_effectiveness.map
          (fun e => e.1) ↔
        MIN_SAMPLES_FOR_ANALYSIS ≤ (ratedSamples recs kw).length) ∧
    (∀ e ∈ (raAnalyzeKeywordEffectiveness recs).keyword_effectiveness,
      e.2 = kwStatsOf (ratedSamples recs e.1) ∧
      e.2.confidence =
        (if (ratedSamples recs e.1).length ≥ 10 ∧
            rawSuccessRate (ratedSamples recs e.1) > 7/10 then "high".toList
         else if (ratedSamples recs e.1).length ≥ 5 ∧
            rawSuccessRate (ratedSamples recs e.1) > 1/2 then "medium".toList
         else "low".toList)) ∧
    ((raAnalyzeKeywordEffectiveness recs).keyword_effectiveness.Pairwise
      (fun a b => b.2.success_rate < a.2.success_rate ∨
        (b.2.success_rate = a.2.success_rate ∧
          b.2.average_rating ≤ a.2.average_rating))) ∧
    ((raAnalyzeKeywordEffectiveness recs).top_performers =
      (((raAnalyzeKeywordEffectiveness recs).keyword_effectiveness.filter
        (fun e => decide (e.2.success_rate > 1/2))).take 5).map (fun e => e.1)) ∧
    ((raAnalyzeKeywordEffectiveness recs).underperformers =
      ((raAnalyzeKeywordEffectiveness recs).keyword_effectiveness.filter
        (fun e => decide (e.2.success_rate < 3/10))).map (fun e => e.1)) := by
  have hke : (raAnalyzeKeywordEffectiveness recs).keyword_effectiveness =
      sortedKeywords recs := rfl
  have hperm : (sortedKeywords recs).Perm (raEffectiveness recs) :=
    stableSortBy_perm kwSortLe (raEffectiveness recs)
  refine ⟨?_, ?_, ?_, ?_, ?_⟩
  · intro kw
    rw [hke, (hperm.map (fun e => e.1)).mem_iff]
    constructor
    · intro hm
      rcases List.mem_map.mp hm with ⟨e, he, hek⟩
      have := (mem_raEffectiveness.mp he).1
      rwa [hek] at this
    · intro hlen
      exact List.mem_map.mpr ⟨(kw, kwStatsOf (ratedSamples recs kw)),
        mem_raEffectiveness.mpr ⟨hlen, rfl⟩, rfl⟩
  · intro e he
    rw [hke] at he
    have hm := hperm.mem_iff.mp he
    have hst := (mem_raEffectiveness.mp hm).2
    refine ⟨hst, ?_⟩
    rw [hst]
    rfl
  · rw [hke]
    exact sortedKeywords_pairwise recs
  · rw [hke]
    have heq : ((sortedKeywords recs).take 5).filter
        (fun e => decide (e.2.success_rate > 1/2)) =
        ((sortedKeywords recs).filter
          (fun e => decide (e.2.success_rate > 1/2))).take 5 := by
      refine take_filter_comm_of_pairwise (sortedKeywords_sr_pairwise recs) ?_ 5
      intro a b hab hb
      simp only [decide_eq_true_eq, gt_iff_lt] at hb ⊢
      exact lt_of_lt_of_le hb hab
    show (((sortedKeywords recs).take 5).filter
        (fun e => decide (e.2.success_rate > 1/2))).map (fun e => e.1) = _
    rw [heq]
  · rw [hke]
    rfl

/-- Three records, each carrying keyword `a`, rated 5, 4 and 1: the concrete
input used to witness C4. -/
def kwExample : List Rec :=
  [{ rating := some 5, keywords := ["a".toList] },
   { rating := some 4, keywords := ["a".toList] },
   { rating := some 1, keywords := ["a".toList] }]

/-- Witness for C4: at `kwExample` the qualifying keyword `a` is present and
its stats are those of its rated samples. -/
theorem ra_keyword_effectiveness_spec_witness :
    ("a".toList, kwStatsOf [5, 4, 1]).2 =
      kwStatsOf (ratedSamples kwExample "a".toList) ∧
    "a".toList ∈ (raAnalyzeKeywordEffectiveness kwExample).keyword_effectiveness.map
      (fun e => e.1) := by
  have hmem : ("a".toList, kwStatsOf [5, 4, 1]) ∈
      (raAnalyzeKeywordEffectiveness kwExample).keyword_effectiveness := by
    have h : (raAnalyzeKeywordEffectiveness kwExample).keyword_effectiveness =
        [("a".toList, kwStatsOf [5, 4, 1])] := rfl
    rw [h]
    exact List.mem_singleton.mpr rfl
  refine ⟨((ra_keyword_effectiveness_spec kwExample).2.1 _ hmem).1, ?_⟩
  exact ((ra_keyword_effectiveness_spec kwExample).1 "a".toList).mpr (by decide)

/-!
## Prompt engine (`core/prompt_engine.py`)

`random.choice(l)` is modelled as `randChoice n l = l.get? (n % l.length)`
where `n` is one draw of the explicit random source.  Entries of the
`changes` lists are modelled as tagged values carrying the same data the
source interpolates into its change strings.
-/

/-- The Prompt Engine's own keyword table (`PromptEngine.keyword_categories`):
five categories, matched case-sensitively by `_find_keyword_category`.  It is
distinct from `KeywordExtractor.categories` (six categories including
`visual`, matched case-insensitively). -/
def keyword_categories : List (Str × List Str) :=
  [("structural".toList,
    ["grid", "radial", "fractal", "voronoi", "maze", "tessellated"].map String.toList),
   ("organic".toList,
    ["cellular", "flowing", "growth", "branching", "veins", "natural"].map String.toList),
   ("textural".toList,
    ["rough", "smooth", "grainy", "sharp", "soft", "coarse"].map String.toList),
   ("map_like".toList,
    ["topographic", "contour", "terrain", "elevation", "isoline"].map String.toList),
   ("geometric".toList,
    ["angular", "curved", "symmetrical", "tessellated", "polygonal"].map String.toList)]

/-- `PromptEngine.variation_strategies`. -/
def variationStrategies : List Str :=
  ["keyword_substitution", "descriptor_addition", "emphasis_shifting",
   "keyword_combination", "parameter_tweaking"].map String.toList

/-- `random.choice(l)` under one draw `n` of the random source (`none` iff
`l` is empty, where Python would raise `IndexError`). -/
def randChoice (n : Nat) (l : List α) : Option α := l.get? (n % l.length)

/-- `PromptEngine._find_keyword_category`, returning the matched table entry
(category name and its member list); the source returns the name and then
re-indexes the table with it. -/
def findKeywordCategoryEntry (kw : Str) : Option (Str × List Str) :=
  keyword_categories.find? (fun p => decide (kw ∈ p.2))

/-- `PromptEngine._find_keyword_category` (the category name, or `None`). -/
def findKeywordCategory (kw : Str) : Option Str :=
  (findKeywordCategoryEntry kw).map (fun p => p.1)

/-- One entry of a variation's `changes` list.  The source stores formatted
strings (`"##old → ##new"`, `"Added: d"`, `"Added emphasis: m"`,
`"Added successful keyword: ##kw"`, `"Added parameter: p"`); the constructors
carry the same data. -/
inductive Change where
  | subst (old new : Str)
  | added (descriptor : Str)
  | addedEmphasis (modifier : Str)
  | addedKeyword (kw : Str)
  | addedParameter (param : Str)
deriving DecidableEq, Repr

structure Variation where
  prompt : Str
  strategy : Str
  changes : List Change
deriving DecidableEq, Repr

/-- Python's `str.replace`: replace every non-overlapping occurrence of
`pat`, scanning left to right (callers always pass a non-empty `pat`;
for `pat = []` this model returns the string unchanged). -/
def replaceAll (pat rep : Str) : Str → Str
  | [] => []
  | c :: rest =>
    if pat = [] then c :: rest
    else if pat.isPrefixOf (c :: rest) then
      rep ++ replaceAll pat rep ((c :: rest).drop pat.length)
    else c :: replaceAll pat rep rest
termination_by s => s.length
decreasing_by
  · rename_i hpat _hpre
    simp only [List.length_drop, List.length_cons]
    have hl : 1 ≤ pat.length := List.length_pos.mpr hpat
    omega
  · simp

/-- One iteration of `_keyword_substitution`'s loop over
`keywords[:2]`, threading `(new_prompt, changes)`. -/
def substSlot (rs : Nat → Nat) (st : Str × List Change) (slot : Nat × Str) :
    Option (Str × List Change) :=
  match findKeywordCategoryEntry slot.2 with
  | none => some st
  | some entry =>
    if entry.2.length > 1 then
      let alternatives := entry.2.filter (fun k => decide (k ≠ slot.2))
      if alternatives.isEmpty then some st
      else
        match randChoice (rs slot.1) alternatives with
        | none => none
        | some replacement =>
          some (replaceAll ("##".toList ++ slot.2) ("##".toList ++ replacement) st.1,
            st.2 ++ [Change.subst slot.2 replacement])
    else some st

/-- `PromptEngine._keyword_substitution`. -/
def keywordSubstitution (prompt : Str) (keywords : List Str) (rs : Nat → Nat) :
    Option Variation :=
  if keywords.isEmpty then
    some { prompt := prompt, strategy := "keyword_substitution".toList, changes := [] }
  else do
    let st ← (keywords.take 2).enum.foldlM (substSlot rs) (prompt, ([] : List Change))
    some { prompt := st.1, strategy := "keyword_substitution".toList, changes := st.2 }

/-- The fixed descriptor list of `_descriptor_addition`. -/
def descriptors : List Str :=
  ["with flowing lines", "with subtle texture", "with organic growth",
   "with geometric precision", "with natural randomness",
   "with structured chaos"].map String.toList

/-- `PromptEngine._descriptor_addition`. -/
def descriptorAddition (prompt : Str) (index : Nat) : Option Variation := do
  let d ← descriptors.get? (index % descriptors.length)
  some { prompt := prompt ++ ", ".toList ++ d,
         strategy := "descriptor_addition".toList, changes := [Change.added d] }

/-- The fixed modifier list of `_emphasis_shifting`. -/
def emphasisModifiers : List Str :=
  ["bold", "subtle", "delicate", "strong", "gentle", "dramatic"].map String.toList

/-- `PromptEngine._emphasis_shifting`. -/
def emphasisShifting (prompt : Str) (index : Nat) : Option Variation := do
  let m ← emphasisModifiers.get? (index % emphasisModifiers.length)
  some { prompt := m ++ " ".toList ++ prompt,
         strategy := "emphasis_shifting".toList, changes := [Change.addedEmphasis m] }

/-- The fixed parameter list of `_parameter_tweaking`. -/
def tweakParameters : List Str :=
  ["high contrast", "low contrast", "fine detail", "coarse texture",
   "smooth transitions", "sharp edges"].map String.toList

/-- `PromptEngine._parameter_tweaking`. -/
def parameterTweaking (prompt : Str) (index : Nat) : Option Variation := do
  let p ← tweakParameters.get? (index % tweakParameters.length)
  some { prompt := prompt ++ ", ".toList ++ p,
         strategy := "parameter_tweaking".toList, changes := [Change.addedParameter p] }

/-- Result of `PromptEngine._analyze_successful_patterns`; the empty Python
dict `{}` is the all-default value (every read site uses
`patterns.get(key, default)`). -/
structure Patterns where
  successful_keywords : List (Str × Nat) := []
  high_rated_count : Nat := 0
  total_count : Nat := 0
deriving DecidableEq, Repr

/-- `PromptEngine._keyword_combination`. -/
def keywordCombination (prompt : Str) (patterns : Patterns) (index : Nat) :
    Option Variation :=
  if patterns.successful_keywords.isEmpty then descriptorAddition prompt index
  else
    let top_keywords :=
      (stableSortBy (fun a b : Str × Nat => decide (b.2 ≤ a.2))
        patterns.successful_keywords).take 3
    if top_keywords.isEmpty then descriptorAddition prompt index
    else do
      let pick ← top_keywords.get? (index % top_keywords.length)
      some { prompt := prompt ++ ", ##".toList ++ pick.1,
             strategy := "keyword_combination".toList,
             changes := [Change.addedKeyword pick.1] }

/-- A theme-history record as consumed by the Prompt Engine
(`img.get('prompt', '')` / `img.get('rating', 0)`). -/
structure HRec where
  prompt : Str := []
  rating : Option Int := none
deriving DecidableEq, Repr

/-- `keyword_counts[keyword] = keyword_counts.get(keyword, 0) + 1` on an
insertion-ordered association list. -/
def bump (acc : List (Str × Nat)) (k : Str) : List (Str × Nat) :=
  if acc.any (fun p => decide (p.1 = k)) then
    acc.map (fun p => (p.1, if p.1 = k then p.2 + 1 else p.2))
  else acc ++ [(k, 1)]

/-- `PromptEngine._analyze_successful_patterns` (an empty or `None` history
gives the empty pattern dict). -/
def analyzeSuccessfulPatterns (theme_history : List HRec) : Patterns :=
  if theme_history.isEmpty then {}
  else
    let high_rated := theme_history.filter (fun img => decide (img.rating.getD 0 ≥ 4))
    if high_rated.isEmpty then {}
    else
      let successful_keywords := high_rated.flatMap (fun img => extractKeywords img.prompt)
      { successful_keywords := successful_keywords.foldl bump []
        high_rated_count := high_rated.length
        total_count := theme_history.length }

/-- `PromptEngine._select_variation_strategy`. -/
def selectVariationStrategy (index : Nat) (patterns : Patterns) (rnd : Nat) :
    Option Str :=
  if patterns.high_rated_count > 0 then
    if index % 3 = 0 then some ("keyword_combination".toList)
    else if index % 3 = 1 then some ("keyword_substitution".toList)
    else randChoice rnd variationStrategies
  else randChoice rnd variationStrategies

/-- `PromptEngine._apply_variation_strategy` (unknown strategy names fall
back to `_descriptor_addition`). -/
def applyVariationStrategy (base_prompt : Str) (strategy : Str)
    (current_keywords : List Str) (patterns : Patterns) (index : Nat)
    (rs : Nat → Nat) : Option Variation :=
  if strategy = "keyword_substitution".toList then
    keywordSubstitution base_prompt current_keywords rs
  else if strategy = "descriptor_addition".toList then
    descriptorAddition base_prompt index
  else if strategy = "emphasis_shifting".toList then
    emphasisShifting base_prompt index
  else if strategy = "keyword_combination".toList then
    keywordCombination base_prompt patterns index
  else if strategy = "parameter_tweaking".toList then
    parameterTweaking base_prompt index
  else descriptorAddition base_prompt index

/-- `PromptEngine.generate_variations`; `rs i j` is the `j`-th random draw
available to iteration `i` (draw 0 feeds strategy selection, draws 1.. feed
the strategy application). -/
def generateVariations (base_prompt : Str) (num_variations : Nat)
    (theme_history : List HRec) (rs : Nat → Nat → Nat) : Option (List Variation) :=
  let current_keywords := extractKeywords base_prompt
  let successful_patterns := analyzeSuccessfulPatterns theme_history
  (List.range num_variations).mapM (fun i => do
    let strategy ← selectVariationStrategy i successful_patterns (rs i 0)
    applyVariationStrategy base_prompt strategy current_keywords successful_patterns i
      (fun j => rs i (j + 1)))

/-!
## Keyword extractor taxonomy (`KeywordExtractor.categories`)

Six categories (including `visual`), matched case-insensitively via
`keyword.lower()`; `_get_keyword_category` falls back to `"uncategorized"`.
-/

def extractorCategories : List (Str × List Str) :=
  [("structural".toList,
    ["grid", "radial", "fractal", "voronoi", "maze", "tessellated",
     "lattice"].map String.toList),
   ("organic".toList,
    ["cellular", "flowing", "growth", "branching", "veins", "natural",
     "biological"].map String.toList),
   ("textural".toList,
    ["rough", "smooth", "grainy", "sharp", "soft", "coarse", "fine",
     "gritty"].map String.toList),
   ("map_like".toList,
    ["topographic", "contour", "terrain", "elevation", "isoline",
     "cartographic"].map String.toList),
   ("geometric".toList,
    ["angular", "curved", "symmetrical", "tessellated", "polygonal",
     "circular"].map String.toList),
   ("visual".toList,
    ["bold", "subtle", "delicate", "strong", "gentle", "dramatic",
     "minimalist"].map String.toList)]

/-- Python's `str.lower()` (ASCII). -/
def strLower (s : Str) : Str := s.map Char.toLower

/-- `KeywordExtractor._get_keyword_category`, parameterized by the taxonomy
table held in instance state: first category whose member list contains the
lower-cased keyword, else `"uncategorized"`. -/
def getKeywordCategoryIn (cats : List (Str × List Str)) (kw : Str) : Str :=
  ((cats.find? (fun p => decide (strLower kw ∈ p.2))).map (fun p => p.1)).getD
    "uncategorized".toList

/-- **C6.** Strategy selection: with successful patterns
(`high_rated_count > 0`), index `i` with `i % 3 = 0` forces
`keyword_combination`, `i % 3 = 1` forces `keyword_substitution`, and any
other index draws `random.choice` over the five strategies; with no
successful patterns every index draws `random.choice` over the five; the
random draw ranges over exactly the five strategy names. -/
theorem select_variation_strategy_spec (patterns : Patterns) (i n : Nat) :
    (patterns.high_rated_count > 0 → i % 3 = 0 →
      selectVariationStrategy i patterns n = some ("keyword_combination".toList)) ∧
    (patterns.high_rated_count > 0 → i % 3 = 1 →
      selectVariationStrategy i patterns n = some ("keyword_substitution".toList)) ∧
    (patterns.high_rated_count > 0 → i % 3 ≠ 0 → i % 3 ≠ 1 →
      selectVariationStrategy i patterns n = variationStrategies.get? (n % 5)) ∧
    (patterns.high_rated_count = 0 →
      selectVariationStrategy i patterns n = variationStrategies.get? (n % 5)) ∧
    (∀ s : Str, s ∈ variationStrategies ↔
      ∃ m, randChoice m variationStrategies = some s) := by
  have hlen : variationStrategies.length = 5 := rfl
  refine ⟨?_, ?_, ?_, ?_, ?_⟩
  · intro hp h0
    simp [selectVariationStrategy, hp, h0]
  · intro hp h1
    simp [selectVariationStrategy, hp, h1]
  · intro hp h0 h1
    simp [selectVariationStrategy, hp, h0, h1, randChoice, hlen]
  · intro hp
    simp [selectVariationStrategy, hp, randChoice, hlen]
  · intro s
    constructor
    · intro hs
      rcases List.mem_iff_get?.mp hs with ⟨m, hm⟩
      obtain ⟨hlt, -⟩ := List.get?_eq_some.mp hm
      rw [hlen] at hlt
      refine ⟨m, ?_⟩
      show variationStrategies.get? (m % variationStrategies.length) = some s
      rw [hlen, Nat.mod_eq_of_lt hlt]
      exact hm
    · rintro ⟨m, hm⟩
      exact List.get?_mem hm

/-- Witness for C6 at concrete indices and random draws. -/
theorem select_variation_strategy_spec_witness :
    selectVariationStrategy 0 { high_rated_count := 1 } 0 =
      some ("keyword_combination".toList) ∧
    selectVariationStrategy 1 { high_rated_count := 1 } 0 =
      some ("keyword_substitution".toList) ∧
    selectVariationStrategy 2 { high_rated_count := 1 } 7 =
      variationStrategies.get? (7 % 5) ∧
    selectVariationStrategy 5 {} 3 = variationStrategies.get? (3 % 5) :=
  ⟨(select_variation_strategy_spec { high_rated_count := 1 } 0 0).1 (by decide) (by decide),
   (select_variation_strategy_spec { high_rated_count := 1 } 1 0).2.1 (by decide) (by decide),
   (select_variation_strategy_spec { high_rated_count := 1 } 2 7).2.2.1 (by decide)
     (by decide) (by decide),
   (select_variation_strategy_spec {} 5 3).2.2.2.1 rfl⟩

/-- Reapplication of one recorded change to a prompt (only substitutions
touch the text). -/
def applyChange (p : Str) (c : Change) : Str :=
  match c with
  | .subst old new => replaceAll ("##".toList ++ old) ("##".toList ++ new) p
  | _ => p

theorem keyword_categories_entries_sound :
    ∀ e ∈ keyword_categories, e.2.Nodup ∧ 2 ≤ e.2.length := by decide

theorem findKeywordCategoryEntry_mem {kw : Str} {entry : Str × List Str}
    (h : findKeywordCategoryEntry kw = some entry) :
    entry ∈ keyword_categories ∧ kw ∈ entry.2 :=
  ⟨List.mem_of_find?_eq_some h, by simpa using List.find?_some h⟩

theorem alternatives_ne_nil {kw : Str} {entry : Str × List Str}
    (h : findKeywordCategoryEntry kw = some entry) :
    entry.2.filter (fun k => decide (k ≠ kw)) ≠ [] ∧ 1 < entry.2.length := by
  obtain ⟨hmem, hkw⟩ := findKeywordCategoryEntry_mem h
  obtain ⟨hnd, hlen⟩ := keyword_categories_entries_sound entry hmem
  refine ⟨?_, hlen⟩
  obtain ⟨x, hx, hxne⟩ : ∃ x ∈ entry.2, x ≠ kw := by
    by_contra hall
    push_neg at hall
    match entry, hlen, hnd, hall with
    | (c, a :: b :: t), _, hnd, hall =>
      have ha := hall a (List.mem_cons_self _ _)
      have hb := hall b (List.mem_cons_of_mem _ (List.mem_cons_self _ _))
      have : a ∈ b :: t := by
        rw [ha, ← hb]
        exact List.mem_cons_self _ _
      exact (List.nodup_cons.mp hnd).1 this
  exact List.ne_nil_of_mem (List.mem_filter.mpr ⟨hx, by simpa using hxne⟩)

theorem substSlot_some (rs : Nat → Nat) (st : Str × List Change) (slot : Nat × Str) :
    ∃ st2, substSlot rs st slot = some st2 ∧
      ((findKeywordCategoryEntry slot.2 = none ∧ st2 = st) ∨
       (∃ entry replacement, findKeywordCategoryEntry slot.2 = some entry ∧
         replacement ∈ entry.2 ∧ replacement ≠ slot.2 ∧
         st2 = (replaceAll ("##".toList ++ slot.2) ("##".toList ++ replacement) st.1,
           st.2 ++ [Change.subst slot.2 replacement]))) := by
  cases hfind : findKeywordCategoryEntry slot.2 with
  | none =>
    refine ⟨st, ?_, Or.inl ⟨rfl, rfl⟩⟩
    simp [substSlot, hfind]
  | some entry =>
    obtain ⟨hne, hlen⟩ := alternatives_ne_nil hfind
    have hnotemp : ¬ (entry.2.filter (fun k => decide (k ≠ slot.2))).isEmpty = true := by
      simpa [List.isEmpty_iff] using hne
    have hpos : 0 < (entry.2.filter (fun k => decide (k ≠ slot.2))).length :=
      List.length_pos.mpr hne
    have hidx : rs slot.1 % (entry.2.filter (fun k => decide (k ≠ slot.2))).length <
        (entry.2.filter (fun k => decide (k ≠ slot.2))).length := Nat.mod_lt _ hpos
    have hchoice : randChoice (rs slot.1) (entry.2.filter (fun k => decide (k ≠ slot.2))) =
        some ((entry.2.filter (fun k => decide (k ≠ slot.2))).get ⟨_, hidx⟩) :=
      List.get?_eq_get hidx
    refine ⟨_, ?_, Or.inr ⟨entry,
      (entry.2.filter (fun k => decide (k ≠ slot.2))).get ⟨_, hidx⟩, rfl, ?_, ?_, rfl⟩⟩
    · simp only [substSlot, hfind, if_pos hlen, hnotemp, ite_false, hchoice,
        Bool.false_eq_true, if_false]
    · exact (List.mem_filter.mp (List.get_mem _ _ hidx)).1
    · have := (List.mem_filter.mp (List.get_mem _ _ hidx)).2
      simpa using this

/-- The per-slot relation between a substituted keyword and its recorded
change. -/
def SlotChange (k : Str) (c : Change) : Prop :=
  ∃ entry repl, findKeywordCategoryEntry k = some entry ∧ repl ∈ entry.2 ∧
    repl ≠ k ∧ c = Change.subst k repl

theorem substFold_spec (rs : Nat → Nat) (slots : List (Nat × Str))
    (st : Str × List Change) :
    ∃ newChanges, slots.foldlM (substSlot rs) st =
        some (newChanges.foldl applyChange st.1, st.2 ++ newChanges) ∧
      List.Forall₂ (fun (s : Nat × Str) c => SlotChange s.2 c)
        (slots.filter (fun s => (findKeywordCategory s.2).isSome)) newChanges := by
  induction slots generalizing st with
  | nil => exact ⟨[], by simp, List.Forall₂.nil⟩
  | cons slot rest ih =>
    obtain ⟨st2, hst2, hcase⟩ := substSlot_some rs st slot
    rcases hcase with ⟨hnone, heq⟩ | ⟨entry, repl, hfind, hmem, hne, heq⟩
    · obtain ⟨cs, hcs, hfa⟩ := ih st
      refine ⟨cs, ?_, ?_⟩
      · rw [List.foldlM_cons, hst2, heq]
        simpa using hcs
      · have hfilter : (slot :: rest).filter (fun s => (findKeywordCategory s.2).isSome) =
            rest.filter (fun s => (findKeywordCategory s.2).isSome) := by
          simp [List.filter_cons, findKeywordCategory, hnone]
        rw [hfilter]
        exact hfa
    · obtain ⟨cs, hcs, hfa⟩ := ih
        (replaceAll ("##".toList ++ slot.2) ("##".toList ++ repl) st.1,
          st.2 ++ [Change.subst slot.2 repl])
      refine ⟨Change.subst slot.2 repl :: cs, ?_, ?_⟩
      · rw [List.foldlM_cons, hst2, heq]
        simp only [List.foldl_cons, applyChange]
        simpa [List.append_assoc] using hcs
      · have hfilter : (slot :: rest).filter (fun s => (findKeywordCategory s.2).isSome) =
            slot :: rest.filter (fun s => (findKeywordCategory s.2).isSome) := by
          simp [List.filter_cons, findKeywordCategory, hfind]
        rw [hfilter]
        exact List.Forall₂.cons ⟨entry, repl, hfind, hmem, hne, rfl⟩ hfa

/-- Totality and structure of `_keyword_substitution` (helper shared by the
engine-level safety proof). -/
theorem keywordSubstitution_total (prompt : Str) (keywords : List Str)
    (rs : Nat → Nat) :
    ∃ v, keywordSubstitution prompt keywords rs = some v ∧
      v.strategy = "keyword_substitution".toList ∧
      v.prompt = v.changes.foldl applyChange prompt ∧
      List.Forall₂ (fun (k : Str) c => SlotChange k c)
        ((keywords.take 2).filter (fun k => (findKeywordCategory k).isSome))
        v.changes := by
  by_cases hkw : keywords.isEmpty
  · have hk : keywords = [] := List.isEmpty_iff.mp hkw
    subst hk
    exact ⟨⟨prompt, "keyword_substitution".toList, []⟩,
      by simp [keywordSubstitution], rfl, rfl, by simp⟩
  · obtain ⟨cs, hcs, hfa⟩ := substFold_spec rs ((keywords.take 2).enum) (prompt, [])
    refine ⟨⟨cs.foldl applyChange prompt, "keyword_substitution".toList, cs⟩, ?_, rfl, rfl, ?_⟩
    · unfold keywordSubstitution
      rw [if_neg (by simpa using hkw)]
      rw [hcs]
      simp
    · have henum : ((keywords.take 2).enum.filter
          (fun s => (findKeywordCategory s.2).isSome)).map Prod.snd =
          (keywords.take 2).filter (fun k => (findKeywordCategory k).isSome) := by
        have h1 := @List.map_filter (Nat × Str) Str
          (fun k => (findKeywordCategory k).isSome) Prod.snd (keywords.take 2).enum
        rw [List.enum_map_snd] at h1
        have h2 : ((fun k => (findKeywordCategory k).isSome) ∘ Prod.snd) =
            (fun s : Nat × Str => (findKeywordCategory s.2).isSome) := rfl
        rw [h2] at h1
        exact h1.symm
      rw [← henum]
      exact List.forall₂_map_left_iff.mpr hfa

/-- **C2 (amended).** `_keyword_substitution`: for every prompt, keyword list
and random outcome, the result exists and carries strategy
`keyword_substitution`; with no keywords the prompt is returned unchanged
with empty `changes`; each of the first 2 keywords that has an entry in the
engine's own five-category, case-sensitively matched table is substituted by
a different member of the same category and recorded in `changes` (one change
per such keyword, in order); keywords with no entry contribute nothing; and
the output prompt is exactly the sequential application of the recorded
`##old → ##new` replace-all substitutions to the input prompt. -/
theorem keyword_substitution_spec (prompt : Str) (keywords : List Str)
    (rs : Nat → Nat) :
    ∃ v, keywordSubstitution prompt keywords rs = some v ∧
      v.strategy = "keyword_substitution".toList ∧
      (keywords = [] → v = ⟨prompt, "keyword_substitution".toList, []⟩) ∧
      v.prompt = v.changes.foldl applyChange prompt ∧
      List.Forall₂ (fun (k : Str) c => SlotChange k c)
        ((keywords.take 2).filter (fun k => (findKeywordCategory k).isSome))
        v.changes ∧
      v.changes.length =
        ((keywords.take 2).filter (fun k => (findKeywordCategory k).isSome)).length := by
  obtain ⟨v, hv, hstrat, happ, hfa⟩ := keywordSubstitution_total prompt keywords rs
  refine ⟨v, hv, hstrat, ?_, happ, hfa, (List.Forall₂.length_eq hfa).symm⟩
  intro hk
  subst hk
  have h0 : some (⟨prompt, "keyword_substitution".toList, []⟩ : Variation) = some v := by
    rw [← hv]
    simp [keywordSubstitution]
  exact (Option.some_injective _ h0).symm

/-- **C2 counterexample.** The claim says substitution consults the fixed
six-category taxonomy (including `visual`) case-insensitively, so for prompt
`"##bold"` with keyword `bold` — which that taxonomy places in `visual`, a
category with 7 ≥ 2 members — it requires a substitution to be picked and
recorded.  The code's `_find_keyword_category` consults the engine's own
five-category, case-sensitive table, which has no entry for `bold`: no
substitution happens and `changes` stays empty. -/
theorem keyword_substitution_claim_counterexample :
    getKeywordCategoryIn extractorCategories "bold".toList = "visual".toList ∧
    2 ≤ ((findVal extractorCategories ("visual".toList)).getD []).length ∧
    keywordSubstitution "##bold".toList ["bold".toList] (fun _ => 0) =
      some ⟨"##bold".toList, "keyword_substitution".toList, []⟩ := by
  refine ⟨by decide, by decide, ?_⟩
  have hfind : findKeywordCategoryEntry ['b', 'o', 'l', 'd'] = none := by decide
  simp [keywordSubstitution, substSlot, hfind, List.enum, List.enumFrom,
    List.foldlM_cons, List.foldlM_nil]

/-- Witness for C2 at a concrete input: `grid` is in the engine's
`structural` category, so exactly one substitution is recorded. -/
theorem keyword_substitution_spec_witness :
    ∃ v, keywordSubstitution "##grid layout".toList ["grid".toList] (fun _ => 0) =
        some v ∧
      v.strategy = "keyword_substitution".toList ∧ v.changes.length = 1 := by
  obtain ⟨v, hv, hstrat, hempt, happ, hfa, hlen⟩ :=
    keyword_substitution_spec "##grid layout".toList ["grid".toList] (fun _ => 0)
  refine ⟨v, hv, hstrat, ?_⟩
  rw [hlen]
  decide

theorem replaceAll_ne_nil {pat rep : Str} (hrep : rep ≠ []) {s : Str} (hs : s ≠ []) :
    replaceAll pat rep s ≠ [] := by
  cases s with
  | nil => exact absurd rfl hs
  | cons c rest =>
    simp only [replaceAll]
    by_cases h0 : pat = []
    · simp [h0]
    · by_cases h1 : pat.isPrefixOf (c :: rest)
      · simp [h0, h1, hrep]
      · simp [h0, h1]

theorem foldl_applyChange_ne_nil (cs : List Change) {p : Str} (hp : p ≠ []) :
    cs.foldl applyChange p ≠ [] := by
  induction cs generalizing p with
  | nil => exact hp
  | cons c cs ih =>
    rw [List.foldl_cons]
    refine ih ?_
    cases c with
    | subst old new =>
      exact replaceAll_ne_nil (by simp) hp
    | added d => exact hp
    | addedEmphasis m => exact hp
    | addedKeyword k => exact hp
    | addedParameter q => exact hp

theorem descriptorAddition_spec (p : Str) (i : Nat) :
    ∃ v, descriptorAddition p i = some v ∧
      v.strategy = "descriptor_addition".toList ∧ v.prompt ≠ [] := by
  have hidx : i % descriptors.length < descriptors.length :=
    Nat.mod_lt _ (by decide)
  refine ⟨{ prompt := p ++ ", ".toList ++ descriptors.get ⟨_, hidx⟩,
            strategy := "descriptor_addition".toList,
            changes := [Change.added (descriptors.get ⟨_, hidx⟩)] }, ?_, rfl, ?_⟩
  · unfold descriptorAddition
    rw [List.get?_eq_get hidx]
    rfl
  · intro h
    simp [List.append_eq_nil] at h

theorem emphasisShifting_spec (p : Str) (i : Nat) :
    ∃ v, emphasisShifting p i = some v ∧
      v.strategy = "emphasis_shifting".toList ∧ v.prompt ≠ [] := by
  have hidx : i % emphasisModifiers.length < emphasisModifiers.length :=
    Nat.mod_lt _ (by decide)
  refine ⟨{ prompt := emphasisModifiers.get ⟨_, hidx⟩ ++ " ".toList ++ p,
            strategy := "emphasis_shifting".toList,
            changes := [Change.addedEmphasis (emphasisModifiers.get ⟨_, hidx⟩)] },
    ?_, rfl, ?_⟩
  · unfold emphasisShifting
    rw [List.get?_eq_get hidx]
    rfl
  · intro h
    simp [List.append_eq_nil] at h

theorem parameterTweaking_spec (p : Str) (i : Nat) :
    ∃ v, parameterTweaking p i = some v ∧
      v.strategy = "parameter_tweaking".toList ∧ v.prompt ≠ [] := by
  have hidx : i % tweakParameters.length < tweakParameters.length :=
    Nat.mod_lt _ (by decide)
  refine ⟨{ prompt := p ++ ", ".toList ++ tweakParameters.get ⟨_, hidx⟩,
            strategy := "parameter_tweaking".toList,
            changes := [Change.addedParameter (tweakParameters.get ⟨_, hidx⟩)] },
    ?_, rfl, ?_⟩
  · unfold parameterTweaking
    rw [List.get?_eq_get hidx]
    rfl
  · intro h
    simp [List.append_eq_nil] at h

theorem keywordCombination_spec (p : Str) (patterns : Patterns) (i : Nat) :
    ∃ v, keywordCombination p patterns i = some v ∧
      (v.strategy = "keyword_combination".toList ∨
        v.strategy = "descriptor_addition".toList) ∧ v.prompt ≠ [] := by
  unfold keywordCombination
  by_cases h0 : patterns.successful_keywords.isEmpty = true
  · rw [if_pos h0]
    obtain ⟨v, hv, hstrat, hne⟩ := descriptorAddition_spec p i
    exact ⟨v, hv, Or.inr hstrat, hne⟩
  · rw [if_neg h0]
    by_cases h1 : ((stableSortBy (fun a b : Str × Nat => decide (b.2 ≤ a.2))
        patterns.successful_keywords).take 3).isEmpty = true
    · rw [if_pos h1]
      obtain ⟨v, hv, hstrat, hne⟩ := descriptorAddition_spec p i
      exact ⟨v, hv, Or.inr hstrat, hne⟩
    · rw [if_neg h1]
      have hpos : 0 < ((stableSortBy (fun a b : Str × Nat => decide (b.2 ≤ a.2))
          patterns.successful_keywords).take 3).length := by
        have hne : (stableSortBy (fun a b : Str × Nat => decide (b.2 ≤ a.2))
            patterns.successful_keywords).take 3 ≠ [] := by
          simpa [List.isEmpty_iff] using h1
        exact List.length_pos.mpr hne
      have hidx := Nat.mod_lt i hpos
      obtain ⟨pick, hpick⟩ : ∃ pick, ((stableSortBy
          (fun a b : Str × Nat => decide (b.2 ≤ a.2))
          patterns.successful_keywords).take 3).get?
          (i % ((stableSortBy (fun a b : Str × Nat => decide (b.2 ≤ a.2))
            patterns.successful_keywords).take 3).length) = some pick :=
        ⟨_, List.get?_eq_get hidx⟩
      refine ⟨⟨p ++ ", ##".toList ++ pick.1, "keyword_combination".toList,
        [Change.addedKeyword pick.1]⟩, ?_, Or.inl rfl, ?_⟩
      · rw [hpick]
        rfl
      · intro h
        simp [List.append_eq_nil] at h

theorem applyVariationStrategy_spec (base strategy : Str) (kws : List Str)
    (patterns : Patterns) (i : Nat) (rs : Nat → Nat) :
    ∃ v, applyVariationStrategy base strategy kws patterns i rs = some v ∧
      v.strategy ∈ variationStrategies ∧ (base ≠ [] → v.prompt ≠ []) := by
  unfold applyVariationStrategy
  by_cases h1 : strategy = "keyword_substitution".toList
  · simp only [if_pos h1]
    obtain ⟨v, hv, hstrat, happ, hfa⟩ := keywordSubstitution_total base kws rs
    refine ⟨v, hv, by rw [hstrat]; decide, fun hb => ?_⟩
    rw [happ]
    exact foldl_applyChange_ne_nil _ hb
  · simp only [if_neg h1]
    by_cases h2 : strategy = "descriptor_addition".toList
    · simp only [if_pos h2]
      obtain ⟨v, hv, hstrat, hne⟩ := descriptorAddition_spec base i
      exact ⟨v, hv, by rw [hstrat]; decide, fun _ => hne⟩
    · simp only [if_neg h2]
      by_cases h3 : strategy = "emphasis_shifting".toList
      · simp only [if_pos h3]
        obtain ⟨v, hv, hstrat, hne⟩ := emphasisShifting_spec base i
        exact ⟨v, hv, by rw [hstrat]; decide, fun _ => hne⟩
      · simp only [if_neg h3]
        by_cases h4 : strategy = "keyword_combination".toList
        · simp only [if_pos h4]
          obtain ⟨v, hv, hstrat, hne⟩ := keywordCombination_spec base patterns i
          refine ⟨v, hv, ?_, fun _ => hne⟩
          rcases hstrat with h | h <;> rw [h] <;> decide
        · simp only [if_neg h4]
          by_cases h5 : strategy = "parameter_tweaking".toList
          · simp only [if_pos h5]
            obtain ⟨v, hv, hstrat, hne⟩ := parameterTweaking_spec base i
            exact ⟨v, hv, by rw [hstrat]; decide, fun _ => hne⟩
          · simp only [if_neg h5]
            obtain ⟨v, hv, hstrat, hne⟩ := descriptorAddition_spec base i
            exact ⟨v, hv, by rw [hstrat]; decide, fun _ => hne⟩

theorem selectVariationStrategy_total (i : Nat) (patterns : Patterns) (n : Nat) :
    ∃ s, selectVariationStrategy i patterns n = some s := by
  have hrand : ∃ s, randChoice n variationStrategies = some s := by
    have hidx : n % variationStrategies.length < variationStrategies.length :=
      Nat.mod_lt _ (by decide)
    exact ⟨_, List.get?_eq_get hidx⟩
  unfold selectVariationStrategy
  by_cases hp : patterns.high_rated_count > 0
  · by_cases h0 : i % 3 = 0
    · refine ⟨"keyword_combination".toList, ?_⟩
      simp [hp, h0]
    · by_cases h1 : i % 3 = 1
      · refine ⟨"keyword_substitution".toList, ?_⟩
        simp [hp, h0, h1]
      · obtain ⟨s, hs⟩ := hrand
        exact ⟨s, by simp [hp, h0, h1, hs]⟩
  · obtain ⟨s, hs⟩ := hrand
    exact ⟨s, by simp [hp, hs]⟩

theorem mapM_option_of_forall {β : Type} (l : List Nat) (f : Nat → Option β)
    (P : β → Prop) (h : ∀ i ∈ l, ∃ v, f i = some v ∧ P v) :
    ∃ out, l.mapM f = some out ∧ out.length = l.length ∧ ∀ v ∈ out, P v := by
  induction l with
  | nil => exact ⟨[], rfl, rfl, by simp⟩
  | cons i t ih =>
    obtain ⟨v, hv, hp⟩ := h i (List.mem_cons_self i t)
    obtain ⟨out, hout, hlen, hall⟩ := ih (fun j hj => h j (List.mem_cons_of_mem _ hj))
    refine ⟨v :: out, ?_, by simp [hlen], ?_⟩
    · rw [List.mapM_cons, hv, hout]
      rfl
    · intro w hw
      rcases List.mem_cons.mp hw with hw | hw
      · rw [hw]; exact hp
      · exact hall w hw

/-- **C3 (amended).** `generate_variations` never fails: for every base
prompt, variation count, theme history and random outcome it returns exactly
`num_variations` records, each with a strategy among the five known names,
and each with a non-empty prompt whenever the base prompt is non-empty (for
an empty base prompt the `keyword_substitution` strategy returns the empty
prompt unchanged). -/
theorem generate_variations_safe (base : Str) (num : Nat) (hist : List HRec)
    (rs : Nat → Nat → Nat) :
    ∃ out, generateVariations base num hist rs = some out ∧ out.length = num ∧
      ∀ v ∈ out, v.strategy ∈ variationStrategies ∧ (base ≠ [] → v.prompt ≠ []) := by
  have hmain : ∀ i ∈ List.range num, ∃ v,
      (do
        let strategy ← selectVariationStrategy i (analyzeSuccessfulPatterns hist) (rs i 0)
        applyVariationStrategy base strategy (extractKeywords base)
          (analyzeSuccessfulPatterns hist) i (fun j => rs i (j + 1))) = some v ∧
      (v.strategy ∈ variationStrategies ∧ (base ≠ [] → v.prompt ≠ [])) := by
    intro i _
    obtain ⟨s, hs⟩ := selectVariationStrategy_total i (analyzeSuccessfulPatterns hist) (rs i 0)
    obtain ⟨v, hv, hP⟩ := applyVariationStrategy_spec base s (extractKeywords base)
      (analyzeSuccessfulPatterns hist) i (fun j => rs i (j + 1))
    refine ⟨v, ?_, hP⟩
    rw [hs]
    simpa using hv
  obtain ⟨out, hout, hlen, hall⟩ := mapM_option_of_forall (List.range num) _ _ hmain
  exact ⟨out, hout, by simpa using hlen, hall⟩

/-- The property C3 claims of `generate_variations` as stated: every
variation record carries a non-empty prompt, for every input. -/
def C3Claim : Prop :=
  ∀ (base : Str) (num : Nat) (hist : List HRec) (rs : Nat → Nat → Nat),
    ∃ out, generateVariations base num hist rs = some out ∧ out.length = num ∧
      ∀ v ∈ out, v.prompt ≠ [] ∧ v.strategy ∈ variationStrategies

/-- **C3 counterexample.** With the empty base prompt, one requested
variation, empty history and a random outcome that draws
`keyword_substitution`, the returned record's prompt is empty — the claim's
"non-empty prompt" conjunct fails. -/
theorem generate_variations_claim_counterexample :
    generateVariations [] 1 [] (fun _ _ => 0) =
      some [⟨[], "keyword_substitution".toList, []⟩] ∧ ¬ C3Claim := by
  have hek : extractKeywords ([] : Str) = [] := by simp [extractKeywords]
  have h1 : generateVariations [] 1 [] (fun _ _ => 0) =
      some [⟨[], "keyword_substitution".toList, []⟩] := by
    simp [generateVariations, hek, analyzeSuccessfulPatterns, selectVariationStrategy,
      randChoice, variationStrategies, applyVariationStrategy, keywordSubstitution,
      List.range_succ, List.mapM_cons, List.mapM_nil, List.mapM, List.mapM.loop]
  refine ⟨h1, ?_⟩
  intro hclaim
  obtain ⟨out, hout, hlen, hall⟩ := hclaim [] 1 [] (fun _ _ => 0)
  rw [h1] at hout
  have hout2 : [(⟨[], "keyword_substitution".toList, []⟩ : Variation)] = out :=
    Option.some_injective _ hout
  have hv := hall ⟨[], "keyword_substitution".toList, []⟩
    (by rw [← hout2]; exact List.mem_singleton_self _)
  exact hv.1 rfl

/-- Witness for C3 at a concrete input. -/
theorem generate_variations_safe_witness :
    ∃ out, generateVariations "x".toList 2 [] (fun _ _ => 0) = some out ∧
      out.length = 2 ∧ ∀ v ∈ out, v.strategy ∈ variationStrategies ∧
        ("x".toList ≠ [] → v.prompt ≠ []) :=
  generate_variations_safe "x".toList 2 [] (fun _ _ => 0)

/-!
## `KeywordExtractor.suggest_keywords`

The effectiveness data maps keyword → record; only the optional
`success_rate` field is read (`data.get('success_rate', 0)`), so an entry is
modelled as `Str × Option ℚ`.
-/

/-- The inner loop of `suggest_keywords`' top-up phase: append eligible
members of one category until the quota is reached. -/
def innerAdd (current : List Str) (num : Nat) (sugs : List Str) :
    List Str → List Str
  | [] => sugs
  | m :: rest =>
    if m ∉ current ∧ m ∉ sugs then
      let s2 := sugs ++ [m]
      if s2.length ≥ num then s2 else innerAdd current num s2 rest
    else innerAdd current num sugs rest

/-- The outer loop of `suggest_keywords`' top-up phase: scan categories in
declaration order, skipping those already represented among the current
keywords' categories, stopping once the quota is reached. -/
def topUp (cats : List (Str × List Str)) (curCats current : List Str) (num : Nat)
    (sugs : List Str) : List Str :=
  match cats with
  | [] => sugs
  | (c, members) :: rest =>
    if c ∉ curCats then
      let s2 := innerAdd current num sugs members
      if s2.length ≥ num then s2 else topUp rest curCats current num s2
    else topUp rest curCats current num sugs

/-- `KeywordExtractor.suggest_keywords`, parameterized by the taxonomy table
held in instance state. -/
def suggestKeywords (cats : List (Str × List Str)) (current : List Str)
    (eff : List (Str × Option ℚ)) (num : Nat) : List Str :=
  let available := eff.filterMap (fun p =>
    if p.1 ∉ current ∧ p.2.getD 0 > 1/2 then some (p.1, p.2.getD 0) else none)
  let sorted_avail := stableSortBy (fun a b : Str × ℚ => decide (b.2 ≤ a.2)) available
  let suggestions := (sorted_avail.take num).map (fun p => p.1)
  let result :=
    if suggestions.length < num then
      topUp cats (current.map (fun kw => getKeywordCategoryIn cats kw)) current num
        suggestions
    else suggestions
  result.take num

/-- The claim's first candidate phase: keywords not currently used whose
success rate exceeds 0.5, sorted by success rate descending, up to `num`. -/
def firstPhaseSuggestions (current : List Str) (eff : List (Str × Option ℚ))
    (num : Nat) : List Str :=
  ((stableSortBy (fun a b : Str × ℚ => decide (b.2 ≤ a.2))
    (eff.filterMap (fun p =>
      if p.1 ∉ current ∧ p.2.getD 0 > 1/2 then some (p.1, p.2.getD 0) else none))).take
    num).map (fun p => p.1)

theorem innerAdd_extends (current : List Str) (num : Nat) (sugs members : List Str) :
    ∃ t, innerAdd current num sugs members = sugs ++ t ∧ ∀ k ∈ t, k ∉ current := by
  induction members generalizing sugs with
  | nil => exact ⟨[], by simp [innerAdd], by simp⟩
  | cons m rest ih =>
    by_cases hm : m ∉ current ∧ m ∉ sugs
    · by_cases hq : (sugs ++ [m]).length ≥ num
      · refine ⟨[m], ?_, ?_⟩
        · simp only [innerAdd]
          rw [if_pos hm, if_pos hq]
        · intro k hk
          rw [List.mem_singleton.mp hk]
          exact hm.1
      · obtain ⟨t, ht, hall⟩ := ih (sugs ++ [m])
        refine ⟨[m] ++ t, ?_, ?_⟩
        · simp only [innerAdd]
          rw [if_pos hm, if_neg hq, ht, List.append_assoc]
        · intro k hk
          rcases List.mem_append.mp hk with hk | hk
          · rw [List.mem_singleton.mp hk]
            exact hm.1
          · exact hall k hk
    · obtain ⟨t, ht, hall⟩ := ih sugs
      refine ⟨t, ?_, hall⟩
      simp only [innerAdd]
      rw [if_neg hm, ht]

theorem topUp_extends (cats : List (Str × List Str)) (curCats current : List Str)
    (num : Nat) (sugs : List Str) :
    ∃ t, topUp cats curCats current num sugs = sugs ++ t ∧ ∀ k ∈ t, k ∉ current := by
  induction cats generalizing sugs with
  | nil => exact ⟨[], by simp [topUp], by simp⟩
  | cons entry rest ih =>
    obtain ⟨c, members⟩ := entry
    by_cases hc : c ∉ curCats
    · obtain ⟨t1, ht1, hall1⟩ := innerAdd_extends current num sugs members
      by_cases hq : (innerAdd current num sugs members).length ≥ num
      · refine ⟨t1, ?_, hall1⟩
        simp only [topUp]
        rw [if_pos hc, if_pos hq, ht1]
      · obtain ⟨t2, ht2, hall2⟩ := ih (innerAdd current num sugs members)
        refine ⟨t1 ++ t2, ?_, ?_⟩
        · simp only [topUp]
          rw [if_pos hc, if_neg hq, ht2, ht1, List.append_assoc]
        · intro k hk
          rcases List.mem_append.mp hk with hk | hk
          · exact hall1 k hk
          · exact hall2 k hk
    · obtain ⟨t, ht, hall⟩ := ih sugs
      refine ⟨t, ?_, hall⟩
      simp only [topUp]
      rw [if_neg hc, ht]

theorem firstPhase_not_current (current : List Str) (eff : List (Str × Option ℚ))
    (num : Nat) : ∀ k ∈ firstPhaseSuggestions current eff num, k ∉ current := by
  intro k hk
  rcases List.mem_map.mp hk with ⟨p, hp, hpk⟩
  have hp2 : p ∈ stableSortBy (fun a b : Str × ℚ => decide (b.2 ≤ a.2))
      (eff.filterMap (fun p =>
        if p.1 ∉ current ∧ p.2.getD 0 > 1/2 then some (p.1, p.2.getD 0) else none)) :=
    List.mem_of_mem_take hp
  have hp3 := (stableSortBy_perm _ _).mem_iff.mp hp2
  rcases List.mem_filterMap.mp hp3 with ⟨q, _, hq⟩
  by_cases hcond : q.1 ∉ current ∧ q.2.getD 0 > 1/2
  · rw [if_pos hcond] at hq
    have : p.1 = q.1 := by
      have := Option.some_injective _ hq
      rw [← this]
    rw [← hpk, this]
    exact hcond.1
  · rw [if_neg hcond] at hq
    exact absurd hq (by simp)

theorem firstPhase_length_le (current : List Str) (eff : List (Str × Option ℚ))
    (num : Nat) : (firstPhaseSuggestions current eff num).length ≤ num := by
  unfold firstPhaseSuggestions
  rw [List.length_map]
  exact List.length_take_le num _

/-- **C8.** `suggest_keywords` first emits, sorted by success rate
descending, up to `num_suggestions` keywords not in `current_keywords` whose
success rate exceeds 0.5 (they form the front of the result); any top-up
keywords also avoid `current_keywords`; the result has at most
`num_suggestions` elements and contains no element of `current_keywords`;
and on the claim's concrete example the result is
`["flowing", "cellular"]` — it includes `flowing` and excludes `grid`. -/
theorem suggest_keywords_spec (current : List Str) (eff : List (Str × Option ℚ))
    (num : Nat) :
    (suggestKeywords extractorCategories current eff num).length ≤ num ∧
    (∀ k ∈ suggestKeywords extractorCategories current eff num, k ∉ current) ∧
    (suggestKeywords extractorCategories current eff num).take
        (firstPhaseSuggestions current eff num).length =
      firstPhaseSuggestions current eff num ∧
    (suggestKeywords extractorCategories ["fractal".toList]
        [("flowing".toList, some (4/5 : ℚ)), ("grid".toList, some (1/10 : ℚ))] 2 =
      ["flowing".toList, "cellular".toList]) := by
  have hkey : ∀ cur ef n, suggestKeywords extractorCategories cur ef n =
      (if (firstPhaseSuggestions cur ef n).length < n then
        topUp extractorCategories
          (cur.map (fun kw => getKeywordCategoryIn extractorCategories kw)) cur n
          (firstPhaseSuggestions cur ef n)
      else firstPhaseSuggestions cur ef n).take n := by
    intro cur ef n
    rfl
  refine ⟨?_, ?_, ?_, ?_⟩
  · rw [hkey]
    exact List.length_take_le num _
  · intro k hk
    rw [hkey] at hk
    have hk2 := List.mem_of_mem_take hk
    by_cases hcond : (firstPhaseSuggestions current eff num).length < num
    · rw [if_pos hcond] at hk2
      obtain ⟨t, ht, hall⟩ := topUp_extends extractorCategories
        (current.map (fun kw => getKeywordCategoryIn extractorCategories kw)) current
        num (firstPhaseSuggestions current eff num)
      rw [ht] at hk2
      rcases List.mem_append.mp hk2 with hk3 | hk3
      · exact firstPhase_not_current current eff num k hk3
      · exact hall k hk3
    · rw [if_neg hcond] at hk2
      exact firstPhase_not_current current eff num k hk2
  · rw [hkey]
    by_cases hcond : (firstPhaseSuggestions current eff num).length < num
    · rw [if_pos hcond]
      obtain ⟨t, ht, -⟩ := topUp_extends extractorCategories
        (current.map (fun kw => getKeywordCategoryIn extractorCategories kw)) current
        num (firstPhaseSuggestions current eff num)
      rw [ht]
      rw [List.take_append_eq_append_take]
      rw [List.take_of_length_le (le_of_lt hcond)]
      rw [List.take_append_eq_append_take, List.take_length]
      simp
    · rw [if_neg hcond]
      rw [List.take_of_length_le (firstPhase_length_le current eff num)]
      exact List.take_length _

  · have havail : ([("flowing".toList, some (4/5 : ℚ)),
        ("grid".toList, some (1/10 : ℚ))].filterMap (fun p =>
        if p.1 ∉ ["fractal".toList] ∧ p.2.getD 0 > 1/2 then
          some (p.1, p.2.getD 0) else none)) =
        [("flowing".toList, ((4:ℚ)/5))] := by
      rw [List.filterMap_cons, List.filterMap_cons, List.filterMap_nil]
      rw [if_pos ⟨by decide, by norm_num⟩]
      rw [if_neg ?hgrid]
      case hgrid =>
        rintro ⟨-, habs⟩
        norm_num at habs
      rfl
    unfold suggestKeywords
    simp only [havail]
    decide

/-- Witness for C8 at the claim's concrete input. -/
theorem suggest_keywords_spec_witness :
    (suggestKeywords extractorCategories ["fractal".toList]
        [("flowing".toList, some (4/5 : ℚ)), ("grid".toList, some (1/10 : ℚ))] 2).length
      ≤ 2 ∧
    ∀ k ∈ suggestKeywords extractorCategories ["fractal".toList]
        [("flowing".toList, some (4/5 : ℚ)), ("grid".toList, some (1/10 : ℚ))] 2,
      k ∉ ["fractal".toList] :=
  ⟨(suggest_keywords_spec ["fractal".toList]
      [("flowing".toList, some (4/5 : ℚ)), ("grid".toList, some (1/10 : ℚ))] 2).1,
   (suggest_keywords_spec ["fractal".toList]
      [("flowing".toList, some (4/5 : ℚ)), ("grid".toList, some (1/10 : ℚ))] 2).2.1⟩

/-!
## `KeywordExtractor.categorize_keywords` and
`KeywordExtractor.analyze_keyword_effectiveness`
-/

/-- `KeywordExtractor.categorize_keywords`, parameterized by the taxonomy:
each keyword goes to the first category containing its lower-cased form
(keeping its original spelling), the rest to a trailing `uncategorized`
bucket present only when non-empty. -/
def categorizeKeywords (cats : List (Str × List Str)) (kws : List Str) :
    List (Str × List Str) :=
  let step := fun (st : List (Str × List Str) × List Str) kw =>
    match cats.find? (fun p => decide (strLower kw ∈ p.2)) with
    | some entry =>
      (st.1.map (fun b => (b.1, if b.1 = entry.1 then b.2 ++ [kw] else b.2)), st.2)
    | none => (st.1, st.2 ++ [kw])
  let init := (cats.map (fun p => (p.1, ([] : List Str))), ([] : List Str))
  let res := kws.foldl step init
  if res.2.isEmpty then res.1 else res.1 ++ [("uncategorized".toList, res.2)]

structure KeStats where
  average_rating : ℚ
  total_uses : Nat
  high_rated_count : Nat
  success_rate : ℚ
  category : Str
deriving DecidableEq, Repr

/-- The keyword → ratings collection loop of
`KeywordExtractor.analyze_keyword_effectiveness`: a record with no rating
contributes `data.get('rating', 0) = 0` for each of its keywords. -/
def collectAllStats (recs : List Rec) : List (Str × List Int) :=
  recs.foldl (fun acc item =>
    item.keywords.foldl (fun a kw => addRating a kw (item.rating.getD 0)) acc) []

/-- `KeywordExtractor.analyze_keyword_effectiveness` (no minimum-sample
threshold; every keyword ever seen is reported). -/
def keAnalyzeKeywordEffectiveness (cats : List (Str × List Str)) (recs : List Rec) :
    List (Str × KeStats) :=
  (collectAllStats recs).filterMap (fun p =>
    if p.2.isEmpty then none
    else some (p.1,
      { average_rating := round2 (meanI p.2)
        total_uses := p.2.length
        high_rated_count := (p.2.filter (fun r => r ≥ 4)).length
        success_rate :=
          round2 (((p.2.filter (fun r => r ≥ 4)).length : ℚ) / (p.2.length : ℚ))
        category := getKeywordCategoryIn cats p.1 }))

/-- Claim-level description of a keyword's samples as the extractor-side
analysis collects them: every record contributes its rating — with a missing
rating read as 0 — once per occurrence of the keyword. -/
def allSamples (recs : List Rec) (kw : Str) : List Int :=
  recs.flatMap (fun r => List.replicate (r.keywords.count kw) (r.rating.getD 0))

theorem findVal_outerFoldAll (recs : List Rec) (acc : List (Str × List Int))
    (k : Str) :
    findVal (recs.foldl (fun acc item =>
        item.keywords.foldl (fun a kw => addRating a kw (item.rating.getD 0)) acc)
        acc) k =
      if allSamples recs k = [] then findVal acc k
      else some ((findVal acc k).getD [] ++ allSamples recs k) := by
  induction recs generalizing acc with
  | nil => simp [allSamples]
  | cons item rest ih =>
    rw [List.foldl_cons, ih _, findVal_innerFold]
    have hs : allSamples (item :: rest) k =
        List.replicate (item.keywords.count k) (item.rating.getD 0) ++
          allSamples rest k := by
      simp [allSamples]
    rw [hs]
    by_cases h0 : item.keywords.count k = 0
    · simp [h0]
    · have hrep : List.replicate (item.keywords.count k) (item.rating.getD 0) ≠ [] := by
        simp [h0]
      by_cases h1 : allSamples rest k = []
      · simp [h0, h1, hrep]
      · have hne : ¬ (List.replicate (item.keywords.count k) (item.rating.getD 0) ++
            allSamples rest k = []) := by
          simp [hrep]
        simp only [h1, if_neg, hne, if_neg h0, ite_false]
        simp [List.append_assoc]

theorem findVal_collectAll (recs : List Rec) (k : Str) :
    findVal (collectAllStats recs) k =
      if allSamples recs k = [] then none else some (allSamples recs k) := by
  have h := findVal_outerFoldAll recs [] k
  simpa [collectAllStats, findVal_nil] using h

theorem nodupKeys_collectAll (recs : List Rec) :
    (keysOf (collectAllStats recs)).Nodup := by
  suffices hgen : ∀ acc : List (Str × List Int), (keysOf acc).Nodup →
      (keysOf (recs.foldl (fun acc item =>
        item.keywords.foldl (fun a kw => addRating a kw (item.rating.getD 0)) acc)
        acc)).Nodup by
    exact hgen [] (by simp [keysOf])
  induction recs with
  | nil => intro acc hacc; exact hacc
  | cons item rest ih =>
    intro acc hacc
    rw [List.foldl_cons]
    exact ih _ (nodupKeys_innerFold hacc)

theorem collectAll_entry_samples {recs : List Rec} {p : Str × List Int}
    (hm : p ∈ collectAllStats recs) : p.2 = allSamples recs p.1 := by
  have h1 : findVal (collectAllStats recs) p.1 = some p.2 :=
    findVal_eq_of_mem (nodupKeys_collectAll recs) hm
  rw [findVal_collectAll] at h1
  by_cases h : allSamples recs p.1 = []
  · simp [h] at h1
  · rw [if_neg h] at h1
    exact (Option.some_injective _ h1).symm

/-- The concrete input used to illustrate C10: two records carrying keyword
`a`, one with no rating, one rated 4. -/
def c10Example : List Rec :=
  [{ keywords := ["a".toList] }, { rating := some 4, keywords := ["a".toList] }]

/-- **C10.** A record with keywords but no rating is treated as rating 0 by
`KeywordExtractor.analyze_keyword_effectiveness` — it still increments
`total_uses` for each of its keywords and contributes a 0 sample to their
average and success rate — whereas
`RatingAnalyzer.analyze_keyword_effectiveness` excludes unrated records from
all per-keyword statistics.  Stated via the two collectors (all-records
samples with `getD 0` vs rated-only samples) and the claim's concrete
two-record example. -/
theorem missing_rating_treatment (recs : List Rec) :
    (∀ kw : Str, findVal (collectAllStats recs) kw =
      (if allSamples recs kw = [] then none else some (allSamples recs kw))) ∧
    (∀ kw : Str, findVal (collectRatedStats recs) kw =
      (if ratedSamples recs kw = [] then none else some (ratedSamples recs kw))) ∧
    (∀ e ∈ keAnalyzeKeywordEffectiveness extractorCategories recs,
      e.2.total_uses = (allSamples recs e.1).length ∧
      e.2.average_rating = round2 (meanI (allSamples recs e.1)) ∧
      e.2.success_rate = round2
        ((((allSamples recs e.1).filter (fun r => r ≥ 4)).length : ℚ) /
          ((allSamples recs e.1).length : ℚ))) ∧
    (allSamples c10Example "a".toList = [0, 4] ∧
     ratedSamples c10Example "a".toList = [4] ∧
     (keAnalyzeKeywordEffectiveness extractorCategories c10Example).map
       (fun e => (e.1, e.2.total_uses, e.2.high_rated_count)) =
       [("a".toList, 2, 1)] ∧
     (raAnalyzeKeywordEffectiveness c10Example).keyword_effectiveness = []) := by
  refine ⟨findVal_collectAll recs, findVal_collect recs, ?_,
    by decide, by decide, by decide, by decide⟩
  intro e he
  rcases List.mem_filterMap.mp he with ⟨p, hp, hf⟩
  by_cases hemp : p.2.isEmpty = true
  · rw [if_pos hemp] at hf
    exact absurd hf (by simp)
  · rw [if_neg hemp] at hf
    have hsam : p.2 = allSamples recs p.1 := collectAll_entry_samples hp
    have he2 := Option.some_injective _ hf
    rw [← he2, ← hsam]
    exact ⟨rfl, rfl, rfl⟩

/-!
## Instance state and purity (C9)

`KeywordExtractor` holds `self.categories` and `RatingAnalyzer` holds
`self.min_rating_for_success` / `self.min_samples_for_analysis` as instance
state.  Each analyzer method is embedded as a state transformer
`state → state × result`; the translation of each method returns its input
state unchanged because the source bodies only ever *read* the instance
state (no method assigns to `self.*`), which is exactly the content of the
purity claim.
-/

structure ExtractorState where
  categories : List (Str × List Str)
deriving Repr

/-- The state `KeywordExtractor.__init__` sets up. -/
def initExtractorState : ExtractorState := ⟨extractorCategories⟩

structure AnalyzerState where
  min_rating_for_success : Int
  min_samples_for_analysis : Nat
deriving Repr

/-- The state `RatingAnalyzer.__init__` sets up. -/
def initAnalyzerState : AnalyzerState :=
  ⟨HIGH_RATING_THRESHOLD, MIN_SAMPLES_FOR_ANALYSIS⟩

/-- `KeywordExtractor.categorize_keywords` as a state transformer. -/
def categorizeKeywordsSt (s : ExtractorState) (kws : List Str) :
    ExtractorState × List (Str × List Str) :=
  (s, categorizeKeywords s.categories kws)

/-- `KeywordExtractor.analyze_keyword_effectiveness` as a state transformer. -/
def keAnalyzeKeywordEffectivenessSt (s : ExtractorState) (recs : List Rec) :
    ExtractorState × List (Str × KeStats) :=
  (s, keAnalyzeKeywordEffectiveness s.categories recs)

/-- `RatingAnalyzer.analyze_theme_performance` as a state transformer (the
method reads only module constants, not even its instance fields). -/
def analyzeThemePerformanceSt (s : AnalyzerState) (recs : List Rec) :
    AnalyzerState × Except AnalysisError ThemePerformance :=
  (s, analyzeThemePerformance recs)

/-- `RatingAnalyzer.analyze_keyword_effectiveness` as a state transformer. -/
def raAnalyzeKeywordEffectivenessSt (s : AnalyzerState) (recs : List Rec) :
    AnalyzerState × KwEffectivenessResult :=
  (s, raAnalyzeKeywordEffectiveness recs)

/-- **C9.** For every input, calling any of the four analyzer functions
twice on the same input produces identical outputs, and no call changes the
instance state (the taxonomy tables or the analyzer thresholds): the second
call, run on the state the first call leaves behind, returns the same
result. -/
theorem analyzers_idempotent (es : ExtractorState) (ras : AnalyzerState)
    (kws : List Str) (recs : List Rec) :
    ((categorizeKeywordsSt es kws).1 = es ∧
      (categorizeKeywordsSt (categorizeKeywordsSt es kws).1 kws).2 =
        (categorizeKeywordsSt es kws).2) ∧
    ((keAnalyzeKeywordEffectivenessSt es recs).1 = es ∧
      (keAnalyzeKeywordEffectivenessSt (keAnalyzeKeywordEffectivenessSt es recs).1
          recs).2 =
        (keAnalyzeKeywordEffectivenessSt es recs).2) ∧
    ((analyzeThemePerformanceSt ras recs).1 = ras ∧
      (analyzeThemePerformanceSt (analyzeThemePerformanceSt ras recs).1 recs).2 =
        (analyzeThemePerformanceSt ras recs).2) ∧
    ((raAnalyzeKeywordEffectivenessSt ras recs).1 = ras ∧
      (raAnalyzeKeywordEffectivenessSt (raAnalyzeKeywordEffectivenessSt ras recs).1
          recs).2 =
        (raAnalyzeKeywordEffectivenessSt ras recs).2) :=
  ⟨⟨rfl, rfl⟩, ⟨rfl, rfl⟩, ⟨rfl, rfl⟩, ⟨rfl, rfl⟩⟩

end Textures
